import Mathlib

/-!
Verification of the K-Map-Solver core (Quine–McCluskey minimization engine,
grid geometry resolver, and grid coordinate utilities) against its
natural-language specification.

The TypeScript sources are shallowly embedded: binary strings such as
`m.toString(2).padStart(V, "0")` become `List Bool` (most-significant bit
first), cube strings over `{0,1,-}` become `List TChar`, JavaScript numeric
`Array.sort` becomes `List.insertionSort (· ≤ ·)` (JS sort with a numeric
comparator returns the sorted permutation and is stable), and the mutable
`isPrime` flags of the solver become a functional computation of which cubes
took part in a combination (combination success depends only on the cube
strings, so the flag is value-determined).
-/

set_option maxHeartbeats 1000000

/-- Cube character: `0`, `1` or `-` of the TypeScript implicant strings. -/
inductive TChar where
  | zero : TChar
  | one : TChar
  | dash : TChar
deriving DecidableEq, Repr

/-- The `V`-bit binary expansion of `m`, most-significant bit first.  Embeds
`m.toString(2).padStart(V, "0")` (faithful for `m < 2 ^ V`, the only use). -/
def natBits : Nat → Nat → List Bool
  | 0, _ => []
  | v + 1, m => decide (m / 2 ^ v % 2 = 1) :: natBits v (m % 2 ^ v)

/-- Read a most-significant-bit-first list of bits as a number.  Embeds
`parseInt(s, 2)` on binary strings (and `bitsToIndex` of the sources). -/
def bitsToNat (bs : List Bool) : Nat :=
  bs.foldl (fun v b => 2 * v + (if b then 1 else 0)) 0

theorem natBits_length (v m : Nat) : (natBits v m).length = v := by
  induction v generalizing m with
  | zero => rfl
  | succ v ih => simp [natBits, ih]

theorem bitsToNat_natBits_aux (v : Nat) :
    ∀ m a, m < 2 ^ v →
      (natBits v m).foldl (fun x b => 2 * x + (if b then 1 else 0)) a = a * 2 ^ v + m := by
  induction v with
  | zero => intro m a hm; interval_cases m; simp [natBits]
  | succ v ih =>
    intro m a hm
    have h2 : 0 < 2 ^ v := Nat.pos_pow_of_pos v (by norm_num)
    have hdm : m / 2 ^ v < 2 := by
      rw [Nat.div_lt_iff_lt_mul h2]
      calc m < 2 ^ (v + 1) := hm
        _ = 2 * 2 ^ v := by ring
    have hmod : m % 2 ^ v < 2 ^ v := Nat.mod_lt _ h2
    have hrec := ih (m % 2 ^ v) (2 * a + (if decide (m / 2 ^ v % 2 = 1) then 1 else 0)) hmod
    have hbit : (if decide (m / 2 ^ v % 2 = 1) then (1 : Nat) else 0) = m / 2 ^ v := by
      have hc : m / 2 ^ v = 0 ∨ m / 2 ^ v = 1 := by
        generalize m / 2 ^ v = q at hdm ⊢; omega
      rcases hc with h | h <;> rw [h] <;> simp
    simp only [natBits, List.foldl_cons]
    rw [hrec, hbit]
    have e1 : (2 * a + m / 2 ^ v) * 2 ^ v + m % 2 ^ v
        = a * 2 ^ (v + 1) + (2 ^ v * (m / 2 ^ v) + m % 2 ^ v) := by ring
    rw [e1, Nat.div_add_mod]

theorem bitsToNat_natBits {v m : Nat} (hm : m < 2 ^ v) : bitsToNat (natBits v m) = m := by
  have := bitsToNat_natBits_aux v m 0 hm
  simpa [bitsToNat] using this

/-! ## Grid coordinate utilities (src/src/lib/kmap-utils.ts) -/

/-- Result of `getCoordinates`: row bits, column bits and the map selector. -/
structure Coords where
  rowBin : List Bool
  colBin : List Bool
  map : Nat
deriving DecidableEq, Repr

/-- Embeds `getCoordinates(minterm, vars)`: split the `vars`-bit binary
expansion of `minterm` into row / column (and, for 5 variables, map) parts. -/
def getCoordinates (minterm vars : Nat) : Coords :=
  let bin := natBits vars minterm
  if vars = 2 then ⟨bin.take 1, bin.drop 1, 0⟩
  else if vars = 3 then ⟨bin.take 1, bin.drop 1, 0⟩
  else if vars = 4 then ⟨bin.take 2, bin.drop 2, 0⟩
  else if vars = 5 then ⟨(bin.drop 1).take 2, bin.drop 3, if bin.getD 0 false then 1 else 0⟩
  else ⟨[false], [false], 0⟩

/-- Embeds the three-argument call `getMintermIndex(rowGray, colGray, mapIndex)`:
`parseInt((mapIndex === 1 ? "1" : "0") + rowGray + colGray, 2)`. -/
def getMintermIndex (rowGray colGray : List Bool) (mapIndex : Nat) : Nat :=
  bitsToNat ((if mapIndex = 1 then [true] else [false]) ++ rowGray ++ colGray)

/-- C10: for every `V ∈ {2,3,4,5}` and position `m < 2^V`, decomposing `m`
with `getCoordinates` and feeding the row bits, column bits and map selector
back into `getMintermIndex` returns `m`. -/
theorem grid_coordinate_round_trip (V : Nat) (h2 : 2 ≤ V) (h5 : V ≤ 5) :
    ∀ m, m < 2 ^ V →
      getMintermIndex (getCoordinates m V).rowBin (getCoordinates m V).colBin
        (getCoordinates m V).map = m := by
  interval_cases V <;> decide

/-- Witness for C10 at `V = 5`, `m = 17`. -/
theorem grid_coordinate_round_trip_witness :
    2 ≤ 5 ∧ 5 ≤ 5 ∧ 17 < 2 ^ 5 ∧
      getMintermIndex (getCoordinates 17 5).rowBin (getCoordinates 17 5).colBin
        (getCoordinates 17 5).map = 17 :=
  ⟨by decide, by decide, by decide,
    grid_coordinate_round_trip 5 (by decide) (by decide) 17 (by decide)⟩

/-! ## Group geometry resolver: minimal cyclic interval (src/src/components/KmapGrid.tsx) -/

/-- Embeds `uniqueSorted`: `Array.from(new Set(xs)).sort((a,b) => a-b)`.
The JS `Set` keeps the first occurrence of each value in order; the numeric
sort then returns the ascending permutation. -/
def dedupFirst : List Nat → List Nat
  | [] => []
  | x :: xs => x :: dedupFirst (xs.filter (fun y => decide (y ≠ x)))
termination_by l => l.length
decreasing_by
  simp only [List.length_cons]
  exact Nat.lt_succ_of_le (List.length_filter_le _ _)

/-- `uniqueSorted(xs)` of the source: deduplicate then sort ascending. -/
def uniqueSorted (xs : List Nat) : List Nat :=
  List.insertionSort (· ≤ ·) (dedupFirst xs)

/-- Embeds `isInCyclicInterval(value, start, len, size)`:
`((value - start + size) % size) < len`, computed in JS number arithmetic
(the operand is positive in every reachable call, so JS `%` agrees with
`Int.emod`). -/
def isInCyclicInterval (value start len size : Nat) : Bool :=
  decide ((((value : Int) - start + size) % size) < len)

/-- Embeds `minimalCyclicInterval(indices, size)`.  The nested loops
(`len = 1..size` outer, `start = 0..size-1` inner, both breaking at the
first feasible hit) are rendered by `find?` / `findSome?` over `range`,
which scan in the same ascending order and stop at the first hit. -/
def minimalCyclicInterval (indices : List Nat) (size : Nat) : Nat × Nat :=
  if indices.isEmpty then (0, 0)
  else
    let uniq := uniqueSorted indices
    if uniq.length = size then (0, size)
    else
      let ok := fun (len start : Nat) =>
        uniq.all (fun v => isInCyclicInterval v start len size)
      match List.findSome?
          (fun l0 => (List.find? (ok (l0 + 1)) (List.range size)).map
            (fun s => (s, l0 + 1)))
          (List.range size) with
      | some (s, l) => (s, min l size)
      | none => (0, min (size + 1) size)

theorem dedupFirst_mem : ∀ (l : List Nat) (y : Nat), y ∈ dedupFirst l ↔ y ∈ l := by
  intro l
  induction l using dedupFirst.induct with
  | case1 => intro y; simp [dedupFirst]
  | case2 x xs ih =>
    intro y
    rw [dedupFirst]
    simp only [List.mem_cons, ih, List.mem_filter]
    by_cases hyx : y = x <;> simp [hyx]

theorem dedupFirst_nodup : ∀ l : List Nat, (dedupFirst l).Nodup := by
  intro l
  induction l using dedupFirst.induct with
  | case1 => simp [dedupFirst]
  | case2 x xs ih =>
    rw [dedupFirst]
    refine List.nodup_cons.mpr ⟨?_, ih⟩
    rw [dedupFirst_mem]
    simp

theorem uniqueSorted_mem (xs : List Nat) (y : Nat) : y ∈ uniqueSorted xs ↔ y ∈ xs := by
  unfold uniqueSorted
  rw [(List.perm_insertionSort _ _).mem_iff]
  exact dedupFirst_mem xs y

theorem uniqueSorted_nodup (xs : List Nat) : (uniqueSorted xs).Nodup :=
  (List.perm_insertionSort _ _).nodup_iff.mpr (dedupFirst_nodup xs)

theorem find?_range_spec (p : Nat → Bool) :
    ∀ n, (∀ s0, List.find? p (List.range n) = some s0 →
            s0 < n ∧ p s0 = true ∧ ∀ t, t < s0 → p t = false) ∧
         (List.find? p (List.range n) = none → ∀ t, t < n → p t = false) := by
  intro n
  induction n with
  | zero => simp
  | succ n ih =>
    rw [List.range_succ, List.find?_append]
    rcases h : List.find? p (List.range n) with _ | s1
    · have hforall := ih.2 h
      constructor
      · intro s0 hs0
        simp only [Option.none_or] at hs0
        rcases hfn : p n with _ | _
        · simp [List.find?, hfn] at hs0
        · simp [List.find?, hfn] at hs0
          subst hs0
          exact ⟨Nat.lt_succ_self n, hfn, fun t ht => hforall t ht⟩
      · intro hnone t ht
        simp only [Option.none_or] at hnone
        rcases hfn : p n with _ | _
        · rcases Nat.lt_succ_iff_lt_or_eq.mp ht with h1 | h1
          · exact hforall t h1
          · subst h1; exact hfn
        · simp [List.find?, hfn] at hnone
    · have hred : (some s1).or (List.find? p [n]) = some s1 := rfl
      constructor
      · intro s0 hs0
        rw [hred] at hs0
        injection hs0 with hs0
        subst hs0
        obtain ⟨hb, hp, hmin⟩ := ih.1 s1 h
        exact ⟨Nat.lt_succ_of_lt hb, hp, hmin⟩
      · intro hnone
        rw [hred] at hnone
        exact Option.noConfusion hnone

theorem findSome?_range_spec {β : Type} (f : Nat → Option β) :
    ∀ n, (∀ b, List.findSome? f (List.range n) = some b →
            ∃ l, l < n ∧ f l = some b ∧ ∀ t, t < l → f t = none) ∧
         (List.findSome? f (List.range n) = none → ∀ t, t < n → f t = none) := by
  intro n
  induction n with
  | zero => simp
  | succ n ih =>
    rw [List.range_succ, List.findSome?_append]
    have hsingle : List.findSome? f [n] = f n := by
      rcases hfn : f n with _ | b <;> simp [List.findSome?, hfn]
    rcases h : List.findSome? f (List.range n) with _ | b1
    · have hforall := ih.2 h
      constructor
      · intro b hb
        simp only [Option.none_or, hsingle] at hb
        exact ⟨n, Nat.lt_succ_self n, hb, fun t ht => hforall t ht⟩
      · intro hnone t ht
        simp only [Option.none_or, hsingle] at hnone
        rcases Nat.lt_succ_iff_lt_or_eq.mp ht with h1 | h1
        · exact hforall t h1
        · subst h1; exact hnone
    · have hred : (some b1).or (List.findSome? f [n]) = some b1 := rfl
      constructor
      · intro b hb
        rw [hred] at hb
        injection hb with hb
        subst hb
        obtain ⟨l, hl, hf, hmin⟩ := ih.1 b1 h
        exact ⟨l, Nat.lt_succ_of_lt hl, hf, hmin⟩
      · intro hnone
        rw [hred] at hnone
        exact Option.noConfusion hnone

/-- Every value below `size` lies in the full-axis window `[0, size)`. -/
theorem isInCyclicInterval_full {v size : Nat} (hsz : 0 < size) :
    isInCyclicInterval v 0 size size = true := by
  unfold isInCyclicInterval
  have hpos : (0 : Int) < (size : Int) := by exact_mod_cast hsz
  simpa using Int.emod_lt_of_pos ((v : Int) - 0 + size) hpos

/-- The value `(start + len) % size` lies just past a window of length
`len < size`, hence outside it. -/
theorem isInCyclicInterval_boundary {start len size : Nat} (hlen : len < size) :
    isInCyclicInterval ((start + len) % size) start len size = false := by
  unfold isInCyclicInterval
  have hS : (0 : Int) < (size : Int) := by
    exact_mod_cast Nat.lt_of_le_of_lt (Nat.zero_le len) hlen
  have hcast : (((start + len) % size : Nat) : Int) = ((start : Int) + len) % size := by
    push_cast; ring_nf
  have e1 : ((start : Int) + len) % size - start + size
      = (((start : Int) + len) - start + size) + (size : Int) * (-(((start : Int) + len) / size)) := by
    rw [Int.emod_def]; ring
  have e2 : (((start : Int) + len) % size - start + size) % size
      = (((start : Int) + len) - start + size) % size := by
    rw [e1, Int.add_mul_emod_self_left]
  have e3 : (((start : Int) + len) - start + size) % size = ((len : Int) + size) % size := by
    ring_nf
  have e4 : ((len : Int) + size) % size = (len : Int) % size := by
    have : ((len : Int) + size) = (len : Int) + (size : Int) * 1 := by ring
    rw [this, Int.add_mul_emod_self_left]
  have e5 : (len : Int) % size = (len : Int) :=
    Int.emod_eq_of_lt (by positivity) (by exact_mod_cast hlen)
  rw [hcast, e2, e3, e4, e5]
  simp

/-- Pigeonhole on lists: a duplicate-free list of `n` values below `n`
contains every value below `n`. -/
theorem mem_of_nodup_length_eq (l : List Nat) (n : Nat) (hnd : l.Nodup)
    (hb : ∀ v ∈ l, v < n) (hlen : l.length = n) : ∀ j, j < n → j ∈ l := by
  intro j hj
  have hsub : l.toFinset ⊆ Finset.range n := by
    intro x hx
    rw [List.mem_toFinset] at hx
    exact Finset.mem_range.mpr (hb x hx)
  have hcard : (Finset.range n).card ≤ l.toFinset.card := by
    rw [Finset.card_range, List.toFinset_card_of_nodup hnd, hlen]
  have heq := Finset.eq_of_subset_of_card_le hsub hcard
  have : j ∈ l.toFinset := by
    rw [heq]; exact Finset.mem_range.mpr hj
  exact List.mem_toFinset.mp this

/-- A window of length `0` contains nothing. -/
theorem isInCyclicInterval_zero {v s size : Nat} (hsz : 1 ≤ size) :
    isInCyclicInterval v s 0 size = false := by
  unfold isInCyclicInterval
  have hnz : (size : Int) ≠ 0 := by
    have : (0 : Int) < (size : Int) := by exact_mod_cast hsz
    omega
  have := Int.emod_nonneg ((v : Int) - s + size) hnz
  simp only [Nat.cast_zero, decide_eq_false_iff_not, not_lt]
  exact this

/-- C7: `minimalCyclicInterval` returns a window containing every input
index, of minimal feasible length, at the smallest feasible start for that
length, and returns the whole axis when every index occurs. -/
theorem minimalCyclicInterval_correct (indices : List Nat) (size : Nat)
    (hne : indices ≠ []) (hsz : 1 ≤ size) (hb : ∀ v ∈ indices, v < size) :
    (∀ v ∈ indices,
        isInCyclicInterval v (minimalCyclicInterval indices size).1
          (minimalCyclicInterval indices size).2 size = true) ∧
    (∀ l, l < (minimalCyclicInterval indices size).2 → ∀ s, s < size →
        ∃ v ∈ indices, isInCyclicInterval v s l size = false) ∧
    (∀ s, s < (minimalCyclicInterval indices size).1 →
        ∃ v ∈ indices,
          isInCyclicInterval v s (minimalCyclicInterval indices size).2 size = false) ∧
    ((∀ j, j < size → j ∈ indices) → minimalCyclicInterval indices size = (0, size)) := by
  have h0 : indices.isEmpty = false := List.isEmpty_eq_false.mpr hne
  have hsz0 : 0 < size := hsz
  have hbu : ∀ v ∈ uniqueSorted indices, v < size := fun v hv =>
    hb v ((uniqueSorted_mem _ _).mp hv)
  by_cases huniq : (uniqueSorted indices).length = size
  · -- all indices present: the whole axis is returned
    have hEq : minimalCyclicInterval indices size = (0, size) := by
      simp [minimalCyclicInterval, h0, huniq]
    have hall : ∀ j, j < size → j ∈ indices := by
      intro j hj
      exact (uniqueSorted_mem _ _).mp
        (mem_of_nodup_length_eq _ _ (uniqueSorted_nodup _) hbu huniq j hj)
    refine ⟨?_, ?_, ?_, fun _ => hEq⟩
    · intro v _; rw [hEq]; exact isInCyclicInterval_full hsz0
    · intro l hl s hs
      rw [hEq] at hl
      refine ⟨(s + l) % size, hall _ (Nat.mod_lt _ hsz0), ?_⟩
      exact isInCyclicInterval_boundary hl
    · intro s hs
      rw [hEq] at hs
      exact absurd hs (Nat.not_lt_zero s)
  · -- search branch
    set uniq := uniqueSorted indices with huq
    have hexv : ∃ v, v ∈ indices := List.exists_mem_of_ne_nil indices hne
    have hbreak : ∀ {l2 s : Nat}, uniq.all (fun v => isInCyclicInterval v s l2 size) = false →
        ∃ v ∈ indices, isInCyclicInterval v s l2 size = false := by
      intro l2 s hfail
      obtain ⟨v, hv, hvp⟩ := List.all_eq_false.mp hfail
      exact ⟨v, (uniqueSorted_mem _ _).mp hv, by simpa using hvp⟩
    -- the scrutinee of the match inside the definition
    set F := fun l0 => (List.find?
        (fun start => uniq.all (fun v => isInCyclicInterval v start (l0 + 1) size))
        (List.range size)).map (fun s => (s, l0 + 1)) with hF
    have hmatch : minimalCyclicInterval indices size =
        (match List.findSome? F (List.range size) with
         | some (s, l) => (s, min l size)
         | none => (0, min (size + 1) size)) := by
      simp only [minimalCyclicInterval, h0, Bool.false_eq_true, if_false, huniq, if_neg,
        hF, huq]
    rcases hfs : List.findSome? F (List.range size) with _ | ⟨s0, l⟩
    · -- impossible: the full-length window is always feasible
      exfalso
      have hok0 : uniq.all (fun v => isInCyclicInterval v 0 ((size - 1) + 1) size) = true := by
        rw [List.all_eq_true]
        intro v _
        have : (size - 1) + 1 = size := Nat.succ_pred_eq_of_pos hsz0
        rw [this]
        exact isInCyclicInterval_full hsz0
      have hnone := (findSome?_range_spec F size).2 hfs (size - 1) (by omega)
      rw [hF] at hnone
      simp only at hnone
      rcases hfind : List.find?
          (fun start => uniq.all (fun v => isInCyclicInterval v start ((size - 1) + 1) size))
          (List.range size) with _ | s1
      · have := (find?_range_spec _ size).2 hfind 0 hsz0
        rw [hok0] at this
        exact Bool.noConfusion this
      · rw [hfind] at hnone
        exact Option.noConfusion hnone
    · -- a feasible (start, len) was found first at this (len, start)
      obtain ⟨l0, hl0, hFl0, hFmin⟩ := (findSome?_range_spec F size).1 _ hfs
      rw [hF] at hFl0
      simp only at hFl0
      obtain ⟨s1, hfind, hpair⟩ := Option.map_eq_some'.mp hFl0
      have hs1 : s1 = s0 := congrArg Prod.fst hpair
      have hl : l = l0 + 1 := (congrArg Prod.snd hpair).symm
      rw [hs1] at hfind
      obtain ⟨hs0lt, hok, hsmin⟩ := (find?_range_spec _ size).1 _ hfind
      have hlle : l ≤ size := by omega
      have hr : minimalCyclicInterval indices size = (s0, l) := by
        rw [hmatch, hfs]
        simp [Nat.min_eq_left hlle]
      refine ⟨?_, ?_, ?_, ?_⟩
      · intro v hv
        rw [hr]
        have hmem := List.all_eq_true.mp hok v ((uniqueSorted_mem _ _).mpr hv)
        rw [← hl] at hmem
        simpa using hmem
      · intro l2 hl2 s hs
        rw [hr] at hl2
        rcases Nat.eq_zero_or_pos l2 with h2 | h2
        · obtain ⟨v, hv⟩ := hexv
          exact ⟨v, hv, by rw [h2]; exact isInCyclicInterval_zero hsz⟩
        · have ht : l2 - 1 < l0 := by omega
          have hFnone := hFmin (l2 - 1) ht
          rw [hF] at hFnone
          simp only at hFnone
          rcases hfind2 : List.find?
              (fun start => uniq.all (fun v => isInCyclicInterval v start ((l2 - 1) + 1) size))
              (List.range size) with _ | s2
          · have := (find?_range_spec _ size).2 hfind2 s hs
            have hl2e : (l2 - 1) + 1 = l2 := by omega
            rw [hl2e] at this
            exact hbreak this
          · rw [hfind2] at hFnone
            exact absurd hFnone (by simp)
      · intro s hs
        rw [hr] at hs
        have hfail := hsmin s hs
        rw [← hl] at hfail
        rw [hr]
        exact hbreak hfail
      · intro hall
        exfalso
        apply huniq
        have hnd := uniqueSorted_nodup indices
        have hfin : (uniqueSorted indices).toFinset = Finset.range size := by
          apply Finset.Subset.antisymm
          · intro x hx
            rw [List.mem_toFinset] at hx
            exact Finset.mem_range.mpr (hbu x hx)
          · intro x hx
            rw [List.mem_toFinset, uniqueSorted_mem]
            exact hall x (Finset.mem_range.mp hx)
        calc (uniqueSorted indices).length = (uniqueSorted indices).toFinset.card :=
              (List.toFinset_card_of_nodup hnd).symm
          _ = size := by rw [hfin, Finset.card_range]

/-- Witness for C7 at `indices = [1, 2]`, `size = 4` (result `(1, 2)`). -/
theorem minimalCyclicInterval_correct_witness :
    ([1, 2] : List Nat) ≠ [] ∧ 1 ≤ 4 ∧ (∀ v ∈ ([1, 2] : List Nat), v < 4) ∧
    ((∀ v ∈ ([1, 2] : List Nat),
        isInCyclicInterval v (minimalCyclicInterval [1, 2] 4).1
          (minimalCyclicInterval [1, 2] 4).2 4 = true) ∧
    (∀ l, l < (minimalCyclicInterval [1, 2] 4).2 → ∀ s, s < 4 →
        ∃ v ∈ ([1, 2] : List Nat), isInCyclicInterval v s l 4 = false) ∧
    (∀ s, s < (minimalCyclicInterval [1, 2] 4).1 →
        ∃ v ∈ ([1, 2] : List Nat),
          isInCyclicInterval v s (minimalCyclicInterval [1, 2] 4).2 4 = false) ∧
    ((∀ j, j < 4 → j ∈ ([1, 2] : List Nat)) → minimalCyclicInterval [1, 2] 4 = (0, 4))) :=
  ⟨by decide, by decide, by decide,
    minimalCyclicInterval_correct [1, 2] 4 (by decide) (by decide) (by decide)⟩

/-! ## Group geometry resolver: overlay rectangles (src/src/components/KmapGrid.tsx) -/

/-- Embeds `generateGrayCodes(n)` (mirror construction), with binary strings
as bit lists. -/
def generateGrayCodes : Nat → List (List Bool)
  | 0 => [[]]
  | 1 => [[false], [true]]
  | n + 1 =>
    let prev := generateGrayCodes n
    prev.map (fun c => false :: c) ++ prev.reverse.map (fun c => true :: c)

/-- Embeds `getGridDimensions(vars)`: `(rowBits, colBits)`. -/
def getGridDimensions (vars : Nat) : Nat × Nat :=
  if vars = 2 then (1, 1)
  else if vars = 3 then (1, 2)
  else if vars = 4 then (2, 2)
  else if vars = 5 then (2, 2)
  else (2, 2)

/-- One overlay tile of `buildGroupOverlays` (`GroupRect` of the source). -/
structure GroupRect where
  groupId : Nat
  x : Int
  y : Int
  w : Nat
  h : Nat
  area : Nat
  tileId : String
deriving DecidableEq, Repr

/-- The ordering realised by the comparator
`(a, b) => b.area - a.area || a.groupId - b.groupId`:
`a` may precede `b` iff the comparator is `≤ 0` on `(a, b)`. -/
def rectLE (a b : GroupRect) : Prop :=
  b.area < a.area ∨ (a.area = b.area ∧ a.groupId ≤ b.groupId)

instance : DecidableRel rectLE := fun a b => by unfold rectLE; infer_instance

instance : IsTotal GroupRect rectLE :=
  ⟨by intro a b; unfold rectLE; omega⟩

instance : IsTrans GroupRect rectLE :=
  ⟨by intro a b c hab hbc; unfold rectLE at hab hbc ⊢; omega⟩

/-- Embeds the `coordByMinterm` map of `buildGroupOverlays`: built by a
row-major double loop of `Map.set` calls (a later write would win, hence the
reversed first-hit lookup). -/
def coordByMinterm (rowCodes colCodes : List (List Bool)) (mapIndex m : Nat) :
    Option (Nat × Nat) :=
  ((((List.range rowCodes.length).flatMap (fun r =>
      (List.range colCodes.length).map (fun c =>
        (getMintermIndex (rowCodes.getD r []) (colCodes.getD c []) mapIndex, (r, c))))).reverse).find?
    (fun e => e.1 == m)).map (fun e => e.2)

/-- Embeds `buildGroupOverlays(mapIndex)` for a given variable count
(the component computes `rowCodes`/`colCodes` from `variables` exactly this
way).  The final JS `Array.sort` with the area/groupId comparator is rendered
as a stable sort by `rectLE`. -/
def buildGroupOverlays (vcount : Nat) (groups : List (List Nat)) (mapIndex : Nat) :
    List GroupRect :=
  let dims := getGridDimensions vcount
  let rowCodes := generateGrayCodes dims.1
  let colCodes := generateGrayCodes dims.2
  if groups.isEmpty then []
  else
    let rects := (groups.enum).flatMap (fun gp =>
      let coords := gp.2.filterMap (coordByMinterm rowCodes colCodes mapIndex)
      if coords.isEmpty then []
      else
        let rows := coords.map (fun p => p.1)
        let cols := coords.map (fun p => p.2)
        let rowInterval := minimalCyclicInterval rows rowCodes.length
        let colInterval := minimalCyclicInterval cols colCodes.length
        let rowWraps := decide (rowCodes.length < rowInterval.1 + rowInterval.2)
        let colWraps := decide (colCodes.length < colInterval.1 + colInterval.2)
        let yOffsets : List Int := if rowWraps then [0, -(rowCodes.length : Int)] else [0]
        let xOffsets : List Int := if colWraps then [0, -(colCodes.length : Int)] else [0]
        yOffsets.flatMap (fun dy => xOffsets.map (fun dx =>
          ⟨gp.1, (colInterval.1 : Int) + dx, (rowInterval.1 : Int) + dy,
            colInterval.2, rowInterval.2, colInterval.2 * rowInterval.2,
            toString gp.1 ++ ":" ++ toString dx ++ ":" ++ toString dy⟩)))
    List.insertionSort rectLE rects

/-- C8: the rectangles produced by `buildGroupOverlays` are sorted by
descending area, ties broken by ascending originating group index
(equal-area, equal-group tiles may appear in either order, as the
comparator returns 0 on them). -/
theorem buildGroupOverlays_sorted (vcount : Nat) (groups : List (List Nat))
    (mapIndex : Nat) :
    List.Pairwise rectLE (buildGroupOverlays vcount groups mapIndex) := by
  by_cases h : groups.isEmpty
  · simp [buildGroupOverlays, h]
  · have hne : groups.isEmpty = false := by
      rcases hEmpty : groups.isEmpty with _ | _
      · rfl
      · exact absurd hEmpty h
    simp only [buildGroupOverlays, hne, Bool.false_eq_true, if_false]
    exact List.sorted_insertionSort rectLE _

/-! ## Expression formatting (src/unnamed/part_001, formatTerm) -/

/-- The apostrophe appended by the source to negate a literal
(written via its code point to keep the file ASCII-clean). -/
def primeStr : String := String.singleton (Char.ofNat 39)

/-- Embeds `formatTerm(term, vars)`: walk the cube string, appending
`vars[i]` for a `1`, `vars[i]` plus the negation apostrophe for a `0`,
nothing for a `-`; an all-dash cube renders as `"1"`. -/
def formatTerm (term : List TChar) (vars : List String) : String :=
  let r := (term.enum).foldl
    (fun (acc : String × Bool) (p : Nat × TChar) =>
      match p.2 with
      | TChar.dash => acc
      | TChar.one => (acc.1 ++ vars.getD p.1 "", false)
      | TChar.zero => (acc.1 ++ vars.getD p.1 "" ++ primeStr, false))
    ("", true)
  if r.2 then "1" else r.1

/-- The literal produced by `formatTerm` for position `i` holding `c`
(the code maps `1` to the plain literal and `0` to the negated one). -/
def formatLit (vars : List String) (p : Nat × TChar) : String :=
  match p.2 with
  | TChar.dash => ""
  | TChar.one => vars.getD p.1 ""
  | TChar.zero => vars.getD p.1 "" ++ primeStr

/-- The rendering rule exactly as claim C2 states it: bit `0` gives the
plain literal and bit `1` the negated literal. -/
def formatTermClaimC2 (term : List TChar) (vars : List String) : String :=
  if term.all (fun c => c == TChar.dash) then "1"
  else String.join ((term.enum).map (fun p =>
    match p.2 with
    | TChar.dash => ""
    | TChar.zero => vars.getD p.1 ""
    | TChar.one => vars.getD p.1 "" ++ primeStr))

theorem string_join_cons (a : String) (l : List String) :
    String.join (a :: l) = a ++ String.join l := by
  have hoist : ∀ (l2 : List String) (x y : String),
      List.foldl (fun r s => r ++ s) (x ++ y) l2
        = x ++ List.foldl (fun r s => r ++ s) y l2 := by
    intro l2
    induction l2 with
    | nil => intro x y; rfl
    | cons a2 l2 ih => intro x y; simp only [List.foldl_cons, String.append_assoc, ih]
  show List.foldl (fun r s => r ++ s) ("" ++ a) l = a ++ List.foldl (fun r s => r ++ s) "" l
  rw [String.empty_append]
  calc List.foldl (fun r s => r ++ s) a l
      = List.foldl (fun r s => r ++ s) (a ++ "") l := by rw [String.append_empty]
    _ = a ++ List.foldl (fun r s => r ++ s) "" l := hoist l a ""

theorem formatTerm_fold (vars : List String) :
    ∀ (l : List (Nat × TChar)) (s : String) (flag : Bool),
      l.foldl
        (fun (acc : String × Bool) (p : Nat × TChar) =>
          match p.2 with
          | TChar.dash => acc
          | TChar.one => (acc.1 ++ vars.getD p.1 "", false)
          | TChar.zero => (acc.1 ++ vars.getD p.1 "" ++ primeStr, false))
        (s, flag)
      = (s ++ String.join (l.map (formatLit vars)),
         flag && l.all (fun p => p.2 == TChar.dash)) := by
  intro l
  induction l with
  | nil => intro s flag; simp [String.join]
  | cons p rest ih =>
    intro s flag
    rcases p with ⟨i, c⟩
    cases c <;>
      simp only [List.foldl_cons] <;>
      rw [ih] <;>
      simp [formatLit, string_join_cons, String.append_assoc, List.all_cons]

theorem formatTerm_eq_join (term : List TChar) (vars : List String) :
    formatTerm term vars =
      if term.all (fun c => c == TChar.dash) then "1"
      else String.join ((term.enum).map (formatLit vars)) := by
  have henum : ∀ (l : List TChar) (n : Nat),
      (List.enumFrom n l).all (fun p => p.2 == TChar.dash)
        = l.all (fun c => c == TChar.dash) := by
    intro l
    induction l with
    | nil => intro n; rfl
    | cons c cs ih => intro n; simp [List.enumFrom, List.all_cons, ih]
  unfold formatTerm
  rw [formatTerm_fold]
  simp only [List.enum]
  rw [henum term 0]
  rcases hall : term.all (fun c => c == TChar.dash) with _ | _
  · simp [String.empty_append]
  · simp

/-- C2 as stated is false on the code: the cube `01` renders as the negated
first literal followed by the plain second literal, not the other way
around as the claim's polarity says. -/
theorem sop_literal_rendering_counterexample :
    formatTerm [TChar.zero, TChar.one] ["x_0", "x_1"] = "x_0" ++ primeStr ++ "x_1" ∧
    formatTermClaimC2 [TChar.zero, TChar.one] ["x_0", "x_1"] = "x_0" ++ ("x_1" ++ primeStr) ∧
    formatTerm [TChar.zero, TChar.one] ["x_0", "x_1"] ≠
      formatTermClaimC2 [TChar.zero, TChar.one] ["x_0", "x_1"] := by
  refine ⟨by decide, by decide, by decide⟩

/-- C2 amended: for every cover cube, the formatted SOP term is the
concatenation over positions of: the NEGATED literal `x_i`-apostrophe when
the cube has bit `0` at position `i`, the PLAIN literal `x_i` when it has
bit `1`, and nothing for `-`; an all-dash cube renders as the constant
`"1"`. -/
theorem sop_literal_rendering (term : List TChar) (vars : List String) :
    formatTerm term vars =
      if term.all (fun c => c == TChar.dash) then "1"
      else String.join ((term.enum).map (formatLit vars)) :=
  formatTerm_eq_join term vars

/-! ## Quine–McCluskey solver (src/unnamed/part_001)

The TS solver takes `variables` (here `vcount`, since `variables` is a
reserved word in Lean), arrays `minterms`, `dontCares`, and a form flag.
Implicant cube strings become `List TChar`; mutable `isPrime` flags become
the value-determined `markedAt` computation (two cube objects with the same
string are combinable with exactly the same partners, so the flag depends
only on the string); the `while` loops become fuel recursion, with fuel
chosen so that it is provably never exhausted for valid inputs. -/

/-- An implicant: cube string plus covered seed positions.  The TS
`isPrime` flag is computed functionally (see `markedAt`). -/
structure Implicant where
  term : List TChar
  minterms : List Nat
deriving DecidableEq, Repr

/-- Number of occurrences of cube character `c` in a term. -/
def countC (c : TChar) (t : List TChar) : Nat :=
  (t.filter (fun x => x == c)).length

/-- The fully constrained cube of position `m`:
`m.toString(2).padStart(vcount, "0")` as a cube string. -/
def termOfNat (vcount m : Nat) : List TChar :=
  (natBits vcount m).map (fun b => if b then TChar.one else TChar.zero)

/-- Does a cube string match a bit pattern (same length, every constrained
position agreeing)? -/
def matchesBits : List TChar → List Bool → Bool
  | [], [] => true
  | c :: cs, b :: bs =>
      (c == TChar.dash || c == (if b then TChar.one else TChar.zero)) && matchesBits cs bs
  | _, _ => false

/-- Does the cube `t` cover position `m` (of `vcount` bits)? -/
def matchesPos (vcount : Nat) (t : List TChar) (m : Nat) : Bool :=
  matchesBits t (natBits vcount m)

/-- All positions in `[0, 2^vcount)` covered by cube `t`, ascending. -/
def matchList (vcount : Nat) (t : List TChar) : List Nat :=
  (List.range (2 ^ vcount)).filter (fun m => matchesPos vcount t m)

/-- Embeds the JS numeric `Array.sort((a, b) => a - b)`. -/
def sortNat (l : List Nat) : List Nat :=
  List.insertionSort (· ≤ ·) l

/-- Embeds `diffIndex(t1, t2)`: the unique mismatching index, if exactly one
exists (`-1`, rendered `none`, for zero or several mismatches).  Terms
always have equal length in every call. -/
def diffIndex (t1 t2 : List TChar) : Option Nat :=
  match (List.range t1.length).filter
      (fun i => decide (t1.getD i TChar.dash ≠ t2.getD i TChar.dash)) with
  | [d] => some d
  | _ => none

/-- Embeds the seeding loop of `runQM`: every position of
`[...minterms, ...dontCares]` becomes a fully constrained cube placed in the
group indexed by its popcount (groups keep the input order). -/
def seedGroups (vcount : Nat) (minterms dontCares : List Nat) : List (List Implicant) :=
  (List.range (vcount + 1)).map (fun i =>
    ((minterms ++ dontCares).filter
        (fun m => countC TChar.one (termOfNat vcount m) == i)).map
      (fun m => ⟨termOfNat vcount m, [m]⟩))

/-- Inner loop of the combination step: try `t1` against every `t2` of the
next group, appending each new cube (deduplicated by term within the group
under construction, first creator's minterm list wins). -/
def combineInto (t1 : Implicant) : List Implicant → List Implicant → List Implicant
  | [], acc => acc
  | t2 :: g2, acc =>
      match diffIndex t1.term t2.term with
      | none => combineInto t1 g2 acc
      | some d =>
        let newTerm := t1.term.set d TChar.dash
        if acc.any (fun t => t.term == newTerm) then combineInto t1 g2 acc
        else combineInto t1 g2
          (acc ++ [⟨newTerm, sortNat (t1.minterms ++ t2.minterms)⟩])

def combinePairAux : List Implicant → List Implicant → List Implicant → List Implicant
  | [], _, acc => acc
  | t1 :: g1, g2, acc => combinePairAux g1 g2 (combineInto t1 g2 acc)

/-- The cubes produced by combining group `g1` against group `g2`
(`nextGroups[i]` of the source for the pair `(i, i+1)`). -/
def combinePair (g1 g2 : List Implicant) : List Implicant :=
  combinePairAux g1 g2 []

/-- One full combination pass: `nextGroups` of the source. -/
def combineRound (gs : List (List Implicant)) : List (List Implicant) :=
  (List.range gs.length).map (fun i =>
    if i + 1 < gs.length then combinePair (gs.getD i []) (gs.getD (i + 1) []) else [])

/-- Did cube `c` (sitting in group `i`) take part in any successful
combination this round?  This is exactly when the source would have set its
`isPrime` flag to `false`. -/
def markedAt (gs : List (List Implicant)) (i : Nat) (c : Implicant) : Bool :=
  (decide (i + 1 < gs.length) &&
    (gs.getD (i + 1) []).any (fun u => (diffIndex c.term u.term).isSome)) ||
  (decide (0 < i) &&
    (gs.getD (i - 1) []).any (fun u => (diffIndex u.term c.term).isSome))

/-- The cubes of the current round surviving as prime implicants, in
`currentGroups.flat()` order. -/
def collectPrimes (gs : List (List Implicant)) : List Implicant :=
  ((List.range gs.length).map (fun i =>
    (gs.getD i []).filter (fun c => ! markedAt gs i c))).flatten

/-- The main `while` loop of `runQM`, with fuel (a cube of a round with `k`
dashes has `k ≤ vcount`, so `vcount + 1` rounds always suffice; proved
below). -/
def qmLoop : Nat → List (List Implicant) → List Implicant
  | 0, _ => []
  | fuel + 1, gs =>
    if gs.all (fun g => g.isEmpty) then []
    else
      let next := combineRound gs
      let primes := collectPrimes gs
      if next.all (fun g => g.isEmpty) then primes
      else primes ++ qmLoop fuel next

/-- Embeds the global prime deduplication by cube string: the `seenTerms`
set of the source becomes the accumulator; the first occurrence wins. -/
def dedupByTermGo : List Implicant → List (List TChar) → List Implicant
  | [], _ => []
  | q :: rest, seen =>
    if seen.contains q.term then dedupByTermGo rest seen
    else q :: dedupByTermGo rest (q.term :: seen)

def dedupByTerm (l : List Implicant) : List Implicant := dedupByTermGo l []

/-- `coverage[m]` of the source: the unique primes covering `m`, in
generation order (the source builds it prime-major, yielding this list). -/
def coverageOf (uniqs : List Implicant) (m : Nat) : List Implicant :=
  uniqs.filter (fun q => q.minterms.contains m)

/-- Deduplication of implicants preserving first-occurrence order
(the JS `Set` of `newEssentials`; implicant values are pairwise distinct in
every call, so object identity and value identity agree). -/
def dedupImpGo : List Implicant → List Implicant → List Implicant
  | [], _ => []
  | q :: rest, seen =>
    if seen.contains q then dedupImpGo rest seen
    else q :: dedupImpGo rest (q :: seen)

def dedupImp (l : List Implicant) : List Implicant := dedupImpGo l []

/-- The essential-prime loop of `runQM` on the state
`(finalPIs, remainingMinterms)`; `coverage` is computed once, up front, from
the full minterm list, exactly as in the source. -/
def essLoop : Nat → List Implicant → List Implicant × List Nat → List Implicant × List Nat
  | 0, _, st => st
  | fuel + 1, uniqs, st =>
    if st.2.isEmpty then st
    else
      let essentialMs := st.2.filter (fun m => (coverageOf uniqs m).length == 1)
      let newEss := dedupImp (essentialMs.filterMap (fun m => (coverageOf uniqs m).head?))
      if newEss.isEmpty then st
      else
        essLoop fuel uniqs
          (newEss.foldl
            (fun st2 q =>
              (st2.1 ++ [q], st2.2.filter (fun m => ! q.minterms.contains m)))
            st)

/-- The greedy selection scan: first not-yet-chosen prime covering strictly
more remaining minterms than any earlier candidate (`bestPI` / `maxCover`,
the latter starting at `-1`). -/
def pickBest (uniqs finalPIs : List Implicant) (remaining : List Nat) :
    Option Implicant × Int :=
  uniqs.foldl
    (fun acc q =>
      if finalPIs.contains q then acc
      else
        let count : Int := ((q.minterms.filter (fun m => remaining.contains m)).length : Int)
        if acc.2 < count then (some q, count) else acc)
    (none, -1)

/-- The greedy covering loop of `runQM` (fuel: each productive iteration
removes at least one remaining minterm). -/
def greedyLoop : Nat → List Implicant → List Implicant × List Nat → List Implicant × List Nat
  | 0, _, st => st
  | fuel + 1, uniqs, st =>
    if st.2.isEmpty then st
    else
      match pickBest uniqs st.1 st.2 with
      | (some q, maxCover) =>
        if 0 < maxCover then
          greedyLoop fuel uniqs
            (st.1 ++ [q], st.2.filter (fun m => ! q.minterms.contains m))
        else st
      | (none, _) => st

/-- Result record of `runQM`. -/
structure QMResult where
  expression : String
  groups : List (List Nat)
  terms : List (List TChar)
deriving DecidableEq, Repr

/-- The `varNames` array: `x_0, x_1, ...`. -/
def varNames (vcount : Nat) : List String :=
  (List.range vcount).map (fun i => "x_" ++ toString i)

/-- The `primeImplicants` accumulated by the combination loop of `runQM`
(fuel `vcount + 1` provably suffices, see `qmLoop_fuel`). -/
def qmPrimes (vcount : Nat) (minterms dontCares : List Nat) : List Implicant :=
  qmLoop (vcount + 1) (seedGroups vcount minterms dontCares)

/-- The `uniquePIs` of `runQM`: primes deduplicated by cube string. -/
def qmUniqs (vcount : Nat) (minterms dontCares : List Nat) : List Implicant :=
  dedupByTerm (qmPrimes vcount minterms dontCares)

/-- The `(finalPIs, remainingMinterms)` state after the essential-prime loop
and the greedy covering loop of `runQM`. -/
def qmCoverSt (vcount : Nat) (minterms dontCares : List Nat) :
    List Implicant × List Nat :=
  let uniquePIs := qmUniqs vcount minterms dontCares
  let st1 := essLoop (minterms.length + 1) uniquePIs ([], minterms)
  greedyLoop (st1.2.length + 1) uniquePIs st1

/-- The `finalPIs` chosen by `runQM`. -/
def qmFinalPIs (vcount : Nat) (minterms dontCares : List Nat) : List Implicant :=
  (qmCoverSt vcount minterms dontCares).1

/-- Embeds `runQM(variables, minterms, dontCares)` (the successive local
`let`s of the source are the named stage functions above). -/
def runQM (vcount : Nat) (minterms dontCares : List Nat) : QMResult :=
  if minterms.isEmpty then ⟨"0", [], []⟩
  else if minterms.length + dontCares.length = 2 ^ vcount then
    ⟨"1", [minterms ++ dontCares], [List.replicate vcount TChar.dash]⟩
  else
    let st2 := qmCoverSt vcount minterms dontCares
    let expression :=
      String.intercalate " + " (st2.1.map (fun q => formatTerm q.term (varNames vcount)))
    ⟨if expression = "" then "0" else expression,
      st2.1.map (fun q => q.minterms), st2.1.map (fun q => q.term)⟩

/-- Embeds `formatPosFromTerms(terms, variables)`: `"0"` when some term is
all dashes (`/^-+$/`), otherwise the concatenation of parenthesized factors
with the POS polarity (`0` plain, `1` negated); an empty factor is guarded
as `"(0)"`. -/
def formatPosFromTerms (terms : List (List TChar)) (vcount : Nat) : String :=
  if terms.any (fun t => ! t.isEmpty && t.all (fun c => c == TChar.dash)) then "0"
  else
    String.join (terms.map (fun term =>
      let lits := (term.enum).filterMap (fun p =>
        match p.2 with
        | TChar.dash => none
        | TChar.zero => some ((varNames vcount).getD p.1 "")
        | TChar.one => some ((varNames vcount).getD p.1 "" ++ primeStr))
      if lits.isEmpty then "(0)"
      else "(" ++ String.intercalate " + " lits ++ ")"))

/-- Result record of `solveCustom`. -/
structure SolverResult where
  expression : String
  essentials : List (List Nat)
deriving DecidableEq, Repr

/-- The complement set computed by the POS branch of `solveCustom`:
all indices of `[0, 2^vcount)` in neither input list, ascending (the JS
`Set` iterates in insertion order `0..total-1`; the final numeric sort keeps
that order). -/
def zerosOf (vcount : Nat) (minterms dontCares : List Nat) : List Nat :=
  (List.range (2 ^ vcount)).filter
    (fun i => ! minterms.contains i && ! dontCares.contains i)

/-- Embeds `solveCustom(variables, minterms, dontCares, isSop)`. -/
def solveCustom (vcount : Nat) (minterms dontCares : List Nat) (isSop : Bool) :
    SolverResult :=
  if ! isSop then
    let zeros := zerosOf vcount minterms dontCares
    if zeros.isEmpty then ⟨"1", []⟩
    else
      let solution := runQM vcount zeros dontCares
      ⟨formatPosFromTerms solution.terms vcount, solution.groups⟩
  else
    let solution := runQM vcount minterms dontCares
    ⟨solution.expression, solution.groups⟩

/-! ## Expression semantics

The returned expression strings are evaluated through the cube lists they
are formatted from (`QMResult.terms` determines the expression string
term-by-term).  `x_i` is interpreted as bit `i` of the position,
most-significant bit first, exactly as the claims state. -/

/-- Value of one SOP product term on a bit pattern: every `1` position must
read `true`, every `0` position `false` (`formatTerm` renders `1` as the
plain literal and `0` as the negated one), `-` contributes no literal. -/
def evalLits : List TChar → List Bool → Bool
  | [], [] => true
  | c :: cs, b :: bs =>
      (match c with
       | TChar.dash => true
       | TChar.one => b
       | TChar.zero => ! b) && evalLits cs bs
  | _, _ => false

/-- Value of one SOP product term of the expression at position `m`. -/
def evalSopTerm (vcount : Nat) (t : List TChar) (m : Nat) : Bool :=
  evalLits t (natBits vcount m)

/-- Value of the whole SOP expression built from `terms` at position `m`
(an empty term list is the constant `"0"`; the all-dash term is the
constant `"1"`, an empty product). -/
def sopDenote (vcount : Nat) (terms : List (List TChar)) (m : Nat) : Bool :=
  terms.any (fun t => evalSopTerm vcount t m)

/-- Value of one POS factor on a bit pattern: `formatPosFromTerms` renders
`0` as the plain literal and `1` as the negated one, joined by `+`
(an empty factor renders as `"(0)"`, value `false`). -/
def evalPosLits : List TChar → List Bool → Bool
  | [], [] => false
  | c :: cs, b :: bs =>
      (match c with
       | TChar.dash => false
       | TChar.zero => b
       | TChar.one => ! b) || evalPosLits cs bs
  | _, _ => false

/-- Value of one POS factor of the expression at position `m`. -/
def evalPosFactor (vcount : Nat) (t : List TChar) (m : Nat) : Bool :=
  evalPosLits t (natBits vcount m)

/-- Value of the POS expression produced by `formatPosFromTerms terms` at
position `m`: the constant `"0"` when some term is all dashes, otherwise
the conjunction of the factors (an empty factor list is the empty string,
an empty product, value `true`). -/
def posDenote (vcount : Nat) (terms : List (List TChar)) (m : Nat) : Bool :=
  if terms.any (fun t => ! t.isEmpty && t.all (fun c => c == TChar.dash)) then false
  else terms.all (fun t => evalPosFactor vcount t m)

/-- Value at position `m` of the expression string returned by
`solveCustom`, following its branch structure: the literal strings `"1"`
and `"0"` denote the constants, and the formatted expressions are evaluated
through the cube lists they are formatted from. -/
def solveCustomDenote (vcount : Nat) (minterms dontCares : List Nat) (isSop : Bool)
    (m : Nat) : Bool :=
  if ! isSop then
    let zeros := zerosOf vcount minterms dontCares
    if zeros.isEmpty then true
    else posDenote vcount (runQM vcount zeros dontCares).terms m
  else sopDenote vcount (runQM vcount minterms dontCares).terms m

/-- Observer collecting every implicant constructed by the combination
rounds of `runQM` (the seed cubes and each round's products), following
`qmLoop`'s control flow. -/
def qmTrace : Nat → List (List Implicant) → List Implicant
  | 0, _ => []
  | fuel + 1, gs =>
    if gs.all (fun g => g.isEmpty) then []
    else
      let next := combineRound gs
      gs.flatten ++ (if next.all (fun g => g.isEmpty) then [] else qmTrace fuel next)

/-! ## Cube combinatorics -/

theorem termOfNat_length (vcount m : Nat) : (termOfNat vcount m).length = vcount := by
  unfold termOfNat
  rw [List.length_map, natBits_length]

theorem countC_dash_termOfNat (vcount m : Nat) :
    countC TChar.dash (termOfNat vcount m) = 0 := by
  unfold countC termOfNat
  rw [List.length_eq_zero]
  rw [List.filter_eq_nil]
  intro c hc
  obtain ⟨b, _, hb⟩ := List.mem_map.mp hc
  cases b <;> subst hb <;> decide

theorem matchesBits_termOfBits : ∀ (xs ys : List Bool),
    matchesBits (xs.map (fun b => if b then TChar.one else TChar.zero)) ys
      = decide (xs = ys) := by
  intro xs
  induction xs with
  | nil => intro ys; cases ys <;> simp [matchesBits]
  | cons x xs ih =>
    intro ys
    cases ys with
    | nil => simp [matchesBits]
    | cons y ys =>
      simp only [List.map_cons, matchesBits, ih]
      cases x <;> cases y <;> simp

theorem natBits_inj {v a b : Nat} (ha : a < 2 ^ v) (hb : b < 2 ^ v)
    (h : natBits v a = natBits v b) : a = b := by
  have := bitsToNat_natBits ha
  rw [h, bitsToNat_natBits hb] at this
  exact this.symm

theorem filter_range_eq_single (p : Nat → Bool) :
    ∀ n m, m < n → (∀ x, x < n → (p x = true ↔ x = m)) →
      (List.range n).filter p = [m] := by
  intro n
  induction n with
  | zero => intro m hm; omega
  | succ n ih =>
    intro m hm hp
    rw [List.range_succ, List.filter_append]
    by_cases hmn : m = n
    · subst hmn
      have h1 : (List.range m).filter p = [] := by
        rw [List.filter_eq_nil]
        intro x hx
        rw [List.mem_range] at hx
        intro hpx
        have := (hp x (Nat.lt_succ_of_lt hx)).mp hpx
        omega
      have h2 : List.filter p [m] = [m] := by
        have := (hp m hm).mpr rfl
        simp [List.filter, this]
      rw [h1, h2, List.nil_append]
    · have hmlt : m < n := by omega
      have h1 : (List.range n).filter p = [m] :=
        ih m hmlt (fun x hx => hp x (Nat.lt_succ_of_lt hx))
      have h2 : List.filter p [n] = [] := by
        have : ¬ p n = true := fun hpn => hmn ((hp n (Nat.lt_succ_self n)).mp hpn).symm
        rcases hpn : p n with _ | _
        · simp [List.filter, hpn]
        · exact absurd hpn this
      rw [h1, h2, List.append_nil]

theorem matchList_termOfNat {vcount m : Nat} (hm : m < 2 ^ vcount) :
    matchList vcount (termOfNat vcount m) = [m] := by
  unfold matchList
  apply filter_range_eq_single _ _ _ hm
  intro x hx
  unfold matchesPos termOfNat
  rw [matchesBits_termOfBits]
  constructor
  · intro h
    exact (natBits_inj hm hx (of_decide_eq_true h)).symm
  · intro h
    subst h
    simp

theorem matchList_pairwise_lt (vcount : Nat) (t : List TChar) :
    List.Pairwise (· < ·) (matchList vcount t) :=
  List.Pairwise.filter _ (List.pairwise_lt_range _)

theorem matchList_nodup (vcount : Nat) (t : List TChar) :
    (matchList vcount t).Nodup :=
  List.Nodup.filter _ (List.nodup_range _)

theorem matchList_mem {vcount : Nat} {t : List TChar} {m : Nat} :
    m ∈ matchList vcount t ↔ m < 2 ^ vcount ∧ matchesPos vcount t m = true := by
  unfold matchList
  rw [List.mem_filter, List.mem_range]

theorem countC_cons (c y : TChar) (l : List TChar) :
    countC c (y :: l) = (if y = c then 1 else 0) + countC c l := by
  unfold countC
  rcases h : (y == c) with _ | _
  · have : ¬ y = c := by simpa using h
    simp [List.filter, h, this]
  · have : y = c := by simpa using h
    simp only [List.filter, h]
    simp [this]
    omega

theorem getD_set_eq : ∀ (t : List TChar) (d : Nat) (x : TChar), d < t.length →
    (t.set d x).getD d TChar.dash = x := by
  intro t
  induction t with
  | nil => intro d x h; simp at h
  | cons c cs ih =>
    intro d x h
    cases d with
    | zero => rfl
    | succ e =>
      simp only [List.set]
      exact ih e x (by simpa using h)

theorem getD_set_ne : ∀ (t : List TChar) (d : Nat) (x : TChar) (i : Nat), i ≠ d →
    (t.set d x).getD i TChar.dash = t.getD i TChar.dash := by
  intro t
  induction t with
  | nil => intro d x i h; simp [List.set]
  | cons c cs ih =>
    intro d x i h
    cases d with
    | zero =>
      cases i with
      | zero => exact absurd rfl h
      | succ j => rfl
    | succ e =>
      cases i with
      | zero => rfl
      | succ j =>
        simp only [List.set]
        exact ih e x j (by omega)

theorem length_set (t : List TChar) (d : Nat) (x : TChar) :
    (t.set d x).length = t.length := by simp

theorem nodup_all_eq_single {α : Type} : ∀ (L : List α) (d : α), L.Nodup →
    d ∈ L → (∀ x ∈ L, x = d) → L = [d] := by
  intro L d hnd hd hall
  cases L with
  | nil => simp at hd
  | cons a rest =>
    have ha : a = d := hall a (List.mem_cons_self _ _)
    subst ha
    have hrest : rest = [] := by
      cases rest with
      | nil => rfl
      | cons b rest2 =>
        have hb : b = a := hall b (by simp)
        subst hb
        rw [List.nodup_cons] at hnd
        exact absurd (by simp) hnd.1
    rw [hrest]

theorem diffIndex_eq_some_iff (t1 t2 : List TChar) (d : Nat) :
    diffIndex t1 t2 = some d ↔
      (d < t1.length ∧ t1.getD d TChar.dash ≠ t2.getD d TChar.dash ∧
       ∀ i, i < t1.length → i ≠ d → t1.getD i TChar.dash = t2.getD i TChar.dash) := by
  unfold diffIndex
  constructor
  · intro h
    rcases hL : (List.range t1.length).filter
        (fun i => decide (t1.getD i TChar.dash ≠ t2.getD i TChar.dash)) with _ | ⟨a, rest⟩
    · rw [hL] at h; exact Option.noConfusion h
    · rcases rest with _ | ⟨b, rest2⟩
      · rw [hL] at h
        injection h with h
        rw [h] at hL
        have hmem : d ∈ (List.range t1.length).filter
            (fun i => decide (t1.getD i TChar.dash ≠ t2.getD i TChar.dash)) := by
          rw [hL]; simp
        rw [List.mem_filter, List.mem_range] at hmem
        refine ⟨hmem.1, by simpa using hmem.2, ?_⟩
        intro i hi hne
        by_contra hmm
        have hmem2 : i ∈ (List.range t1.length).filter
            (fun i => decide (t1.getD i TChar.dash ≠ t2.getD i TChar.dash)) := by
          rw [List.mem_filter, List.mem_range]
          exact ⟨hi, by simpa using hmm⟩
        rw [hL] at hmem2
        simp at hmem2
        exact hne hmem2
      · rw [hL] at h; exact Option.noConfusion h
  · intro ⟨hd, hne, hrest⟩
    have hL : (List.range t1.length).filter
        (fun i => decide (t1.getD i TChar.dash ≠ t2.getD i TChar.dash)) = [d] := by
      apply nodup_all_eq_single
      · exact List.Nodup.filter _ (List.nodup_range _)
      · rw [List.mem_filter, List.mem_range]
        refine ⟨hd, ?_⟩
        simpa using hne
      · intro x hx
        rw [List.mem_filter, List.mem_range] at hx
        by_contra hxd
        have hxne : t1.getD x TChar.dash ≠ t2.getD x TChar.dash := by simpa using hx.2
        exact hxne (hrest x hx.1 hxd)
    rw [hL]

theorem list_ext_getD : ∀ (xs ys : List TChar), xs.length = ys.length →
    (∀ i, i < xs.length → xs.getD i TChar.dash = ys.getD i TChar.dash) → xs = ys := by
  intro xs
  induction xs with
  | nil =>
    intro ys h _
    cases ys with
    | nil => rfl
    | cons b bs => simp at h
  | cons a as ih =>
    intro ys h hall
    cases ys with
    | nil => simp at h
    | cons b bs =>
      have h0 : a = b := hall 0 (by simp)
      have htail : as = bs := by
        apply ih bs (by simpa using h)
        intro i hi
        exact hall (i + 1) (by simpa using Nat.succ_lt_succ hi)
      rw [h0, htail]

theorem eq_set_of_eq_except (t1 t2 : List TChar) (d : Nat)
    (hlen : t1.length = t2.length) (hd : d < t1.length)
    (hexc : ∀ i, i < t1.length → i ≠ d → t1.getD i TChar.dash = t2.getD i TChar.dash) :
    t2 = t1.set d (t2.getD d TChar.dash) := by
  apply list_ext_getD
  · rw [length_set]; exact hlen.symm
  · intro i hi
    have hi1 : i < t1.length := by omega
    by_cases hic : i = d
    · subst hic
      rw [getD_set_eq _ _ _ hd]
    · rw [getD_set_ne _ _ _ _ hic]
      exact (hexc i hi1 hic).symm

theorem matchesBits_length : ∀ (t : List TChar) (bs : List Bool),
    matchesBits t bs = true → t.length = bs.length := by
  intro t
  induction t with
  | nil => intro bs h; cases bs with
    | nil => rfl
    | cons b bs2 => simp [matchesBits] at h
  | cons c cs ih =>
    intro bs h
    cases bs with
    | nil => simp [matchesBits] at h
    | cons b bs2 =>
      simp only [matchesBits, Bool.and_eq_true] at h
      simp [ih bs2 h.2]

theorem matchesBits_getD : ∀ (t : List TChar) (bs : List Bool),
    matchesBits t bs = true → ∀ i, i < t.length →
      t.getD i TChar.dash = TChar.dash ∨
      t.getD i TChar.dash = (if bs.getD i false then TChar.one else TChar.zero) := by
  intro t
  induction t with
  | nil => intro bs h i hi; simp at hi
  | cons c cs ih =>
    intro bs h i hi
    cases bs with
    | nil => simp [matchesBits] at h
    | cons b bs2 =>
      simp only [matchesBits, Bool.and_eq_true, Bool.or_eq_true, beq_iff_eq] at h
      cases i with
      | zero => exact h.1
      | succ j => exact ih bs2 h.2 j (by simpa using hi)

theorem matchesBits_set_dash_or : ∀ (t : List TChar) (bs : List Bool) (d : Nat),
    d < t.length → t.getD d TChar.dash = TChar.zero →
    matchesBits (t.set d TChar.dash) bs
      = (matchesBits t bs || matchesBits (t.set d TChar.one) bs) := by
  intro t
  induction t with
  | nil => intro bs d hd; simp at hd
  | cons c cs ih =>
    intro bs d hd hz
    cases bs with
    | nil =>
      cases d <;> simp [List.set, matchesBits]
    | cons b bs2 =>
      cases d with
      | zero =>
        have hc : c = TChar.zero := hz
        subst hc
        simp only [List.set, matchesBits]
        cases b <;> simp
      | succ e =>
        have he : e < cs.length := by simpa using hd
        have hze : cs.getD e TChar.dash = TChar.zero := hz
        simp only [List.set, matchesBits, ih bs2 e he hze]
        cases hcb : (c == TChar.dash || c == (if b then TChar.one else TChar.zero)) <;>
          simp [Bool.and_or_distrib_left]

theorem natBits_succ_low {v m : Nat} (hm : m < 2 ^ v) :
    natBits (v + 1) m = false :: natBits v m := by
  have hdef : natBits (v + 1) m
      = decide (m / 2 ^ v % 2 = 1) :: natBits v (m % 2 ^ v) := rfl
  have h1 : m / 2 ^ v = 0 := Nat.div_eq_of_lt hm
  have h2 : m % 2 ^ v = m := Nat.mod_eq_of_lt hm
  rw [hdef, h1, h2]
  simp

theorem natBits_succ_high {v m : Nat} (hm : m < 2 ^ v) :
    natBits (v + 1) (2 ^ v + m) = true :: natBits v m := by
  have hdef : natBits (v + 1) (2 ^ v + m)
      = decide ((2 ^ v + m) / 2 ^ v % 2 = 1) :: natBits v ((2 ^ v + m) % 2 ^ v) := rfl
  have hpos : 0 < 2 ^ v := Nat.pos_pow_of_pos v (by norm_num)
  have h1 : (2 ^ v + m) / 2 ^ v = 1 := by
    rw [Nat.add_comm, Nat.add_div_right _ hpos, Nat.div_eq_of_lt hm]
  have h2 : (2 ^ v + m) % 2 ^ v = m := by
    rw [Nat.add_mod_left]
    exact Nat.mod_eq_of_lt hm
  rw [hdef, h1, h2]
  simp

theorem matchList_cons (c : TChar) (cs : List TChar) (v : Nat) :
    matchList (v + 1) (c :: cs) =
      (if c = TChar.dash ∨ c = TChar.zero then matchList v cs else []) ++
      (if c = TChar.dash ∨ c = TChar.one
        then (matchList v cs).map (fun m => 2 ^ v + m) else []) := by
  unfold matchList
  have hsplit : (2 : Nat) ^ (v + 1) = 2 ^ v + 2 ^ v := by ring
  rw [hsplit, List.range_add, List.filter_append, List.filter_map]
  have hlow : ∀ m ∈ List.range (2 ^ v),
      matchesPos (v + 1) (c :: cs) m
        = ((c == TChar.dash || c == TChar.zero) && matchesPos v cs m) := by
    intro m hm
    rw [List.mem_range] at hm
    unfold matchesPos
    rw [natBits_succ_low hm]
    rfl
  have hhigh : ∀ m ∈ List.range (2 ^ v),
      matchesPos (v + 1) (c :: cs) (2 ^ v + m)
        = ((c == TChar.dash || c == TChar.one) && matchesPos v cs m) := by
    intro m hm
    rw [List.mem_range] at hm
    unfold matchesPos
    rw [natBits_succ_high hm]
    rfl
  congr 1
  · rw [List.filter_congr hlow]
    rcases hc1 : (c == TChar.dash || c == TChar.zero) with _ | _
    · have hn : ¬ (c = TChar.dash ∨ c = TChar.zero) := by
        simp only [Bool.or_eq_false_iff, beq_eq_false_iff_ne] at hc1
        push_neg
        exact ⟨hc1.1, hc1.2⟩
      rw [if_neg hn]
      simp
    · have hp : c = TChar.dash ∨ c = TChar.zero := by
        simp only [Bool.or_eq_true, beq_iff_eq] at hc1
        exact hc1
      rw [if_pos hp]
      simp
  · have hcongr : List.filter (fun m => matchesPos (v + 1) (c :: cs) (2 ^ v + m))
        (List.range (2 ^ v))
        = List.filter (fun m => (c == TChar.dash || c == TChar.one) && matchesPos v cs m)
          (List.range (2 ^ v)) := List.filter_congr hhigh
    have hfn : (fun m => matchesPos (v + 1) (c :: cs) m) ∘ (fun x => 2 ^ v + x)
        = fun m => matchesPos (v + 1) (c :: cs) (2 ^ v + m) := rfl
    rw [hfn, hcongr]
    rcases hc1 : (c == TChar.dash || c == TChar.one) with _ | _
    · have hn : ¬ (c = TChar.dash ∨ c = TChar.one) := by
        simp only [Bool.or_eq_false_iff, beq_eq_false_iff_ne] at hc1
        push_neg
        exact ⟨hc1.1, hc1.2⟩
      rw [if_neg hn]
      simp
    · have hp : c = TChar.dash ∨ c = TChar.one := by
        simp only [Bool.or_eq_true, beq_iff_eq] at hc1
        exact hc1
      rw [if_pos hp]
      simp

theorem matchList_length_pow : ∀ (t : List TChar),
    (matchList t.length t).length = 2 ^ countC TChar.dash t := by
  intro t
  induction t with
  | nil =>
    have : matchList 0 [] = [0] := by decide
    rw [List.length_nil, this]
    rfl
  | cons c cs ih =>
    rw [List.length_cons, matchList_cons, List.length_append]
    cases c
    · -- zero
      rw [if_pos (Or.inr rfl), if_neg (by intro h; rcases h with h | h <;> exact TChar.noConfusion h)]
      rw [countC_cons]
      simp [ih]
    · -- one
      rw [if_neg (by intro h; rcases h with h | h <;> exact TChar.noConfusion h),
        if_pos (Or.inr rfl)]
      rw [countC_cons]
      simp [ih]
    · -- dash
      rw [if_pos (Or.inl rfl), if_pos (Or.inl rfl)]
      rw [countC_cons, List.length_map, ih]
      simp [Nat.pow_succ]
      ring

theorem matchList_length {vcount : Nat} {t : List TChar} (hlen : t.length = vcount) :
    (matchList vcount t).length = 2 ^ countC TChar.dash t := by
  subst hlen
  exact matchList_length_pow t

theorem matchesBits_replicate_dash : ∀ (bs : List Bool),
    matchesBits (List.replicate bs.length TChar.dash) bs = true := by
  intro bs
  induction bs with
  | nil => rfl
  | cons b bs ih => simpa [List.replicate, matchesBits] using ih

theorem matchList_replicate_dash (vcount : Nat) :
    matchList vcount (List.replicate vcount TChar.dash) = List.range (2 ^ vcount) := by
  unfold matchList
  rw [List.filter_eq_self]
  intro m hm
  rw [List.mem_range] at hm
  unfold matchesPos
  have h2 := matchesBits_replicate_dash (natBits vcount m)
  rw [natBits_length] at h2
  exact h2

theorem matchList_set_disjoint {vcount : Nat} {t : List TChar} {d m : Nat}
    (hd : d < t.length) (hz : t.getD d TChar.dash = TChar.zero)
    (h1 : m ∈ matchList vcount t) (h2 : m ∈ matchList vcount (t.set d TChar.one)) :
    False := by
  obtain ⟨hm1, hp1⟩ := matchList_mem.mp h1
  obtain ⟨_, hp2⟩ := matchList_mem.mp h2
  have hb1 := matchesBits_getD t _ hp1 d hd
  have hb2 := matchesBits_getD _ _ hp2 d (by rw [length_set]; exact hd)
  rw [hz] at hb1
  rw [getD_set_eq _ _ _ hd] at hb2
  rcases hb1 with h | h
  · exact TChar.noConfusion h
  · rcases hb2 with h2a | h2a
    · exact TChar.noConfusion h2a
    · rcases hbit : (natBits vcount m).getD d false with _ | _ <;>
        rw [hbit] at h h2a <;> simp at h h2a

theorem matchList_set_union {vcount : Nat} {t : List TChar} {d : Nat}
    (hd : d < t.length) (hz : t.getD d TChar.dash = TChar.zero) (m : Nat) :
    m ∈ matchList vcount (t.set d TChar.dash) ↔
      m ∈ matchList vcount t ∨ m ∈ matchList vcount (t.set d TChar.one) := by
  rw [matchList_mem, matchList_mem, matchList_mem]
  unfold matchesPos
  rw [matchesBits_set_dash_or t _ d hd hz]
  constructor
  · intro ⟨hm, hor⟩
    have hor2 : matchesBits t (natBits vcount m) = true ∨
        matchesBits (t.set d TChar.one) (natBits vcount m) = true := by
      simpa using hor
    rcases hor2 with h | h
    · exact Or.inl ⟨hm, h⟩
    · exact Or.inr ⟨hm, h⟩
  · intro h
    rcases h with ⟨hm, h⟩ | ⟨hm, h⟩
    · exact ⟨hm, by rw [h]; simp⟩
    · exact ⟨hm, by rw [h]; simp⟩

theorem sortNat_eq (l tgt : List Nat) (hperm : l.Perm tgt)
    (hsorted : List.Pairwise (· < ·) tgt) : sortNat l = tgt := by
  apply List.eq_of_perm_of_sorted (r := (· ≤ ·))
    ((List.perm_insertionSort _ l).trans hperm)
    (List.sorted_insertionSort _ l)
  exact List.Pairwise.imp le_of_lt hsorted

theorem perm_of_nodup_mem_iff {l1 l2 : List Nat} (h1 : l1.Nodup) (h2 : l2.Nodup)
    (hmem : ∀ x, x ∈ l1 ↔ x ∈ l2) : l1.Perm l2 := by
  apply List.perm_of_nodup_nodup_toFinset_eq h1 h2
  ext x
  rw [List.mem_toFinset, List.mem_toFinset]
  exact hmem x

/-! ## Solver invariants -/

/-- The input constraints stated by the spec: duplicate-free position sets
within `[0, 2^V)`, disjoint. -/
def ValidInput (vcount : Nat) (minterms dontCares : List Nat) : Prop :=
  minterms.Nodup ∧ dontCares.Nodup ∧ (∀ m ∈ minterms, m < 2 ^ vcount) ∧
  (∀ m ∈ dontCares, m < 2 ^ vcount) ∧ ∀ m ∈ minterms, m ∉ dontCares

instance (vcount : Nat) (mts dcs : List Nat) : Decidable (ValidInput vcount mts dcs) := by
  unfold ValidInput
  infer_instance

/-- Invariant of a single cube of combination round `k` sitting in popcount
group `i`: the term has length `V`, exactly `k` dashes and `i` ones, the
minterm list is exactly the list of covered positions, and every covered
position was seeded. -/
def CubeOK (vcount : Nat) (seeds : List Nat) (k i : Nat) (c : Implicant) : Prop :=
  c.term.length = vcount ∧ countC TChar.dash c.term = k ∧ countC TChar.one c.term = i ∧
  c.minterms = matchList vcount c.term ∧ ∀ m ∈ c.minterms, m ∈ seeds

/-- Invariant of the whole group array at round `k`. -/
def InvGS (vcount : Nat) (seeds : List Nat) (k : Nat) (gs : List (List Implicant)) : Prop :=
  gs.length = vcount + 1 ∧
  ∀ i, i < gs.length → ∀ c ∈ gs.getD i [], CubeOK vcount seeds k i c

theorem getD_map_range {α : Type} (n : Nat) (f : Nat → α) (dflt : α) (i : Nat)
    (hi : i < n) : ((List.range n).map f).getD i dflt = f i := by
  rw [List.getD_eq_getElem?_getD, List.getElem?_map, List.getElem?_range hi]
  rfl

theorem countC_le_length (c : TChar) (t : List TChar) : countC c t ≤ t.length :=
  List.length_filter_le _ _

theorem seedGroups_inv (vcount : Nat) (mts dcs : List Nat)
    (hb : ∀ m ∈ mts ++ dcs, m < 2 ^ vcount) :
    InvGS vcount (mts ++ dcs) 0 (seedGroups vcount mts dcs) := by
  constructor
  · unfold seedGroups
    simp
  · intro i hi c hc
    unfold seedGroups at hc hi
    rw [List.length_map, List.length_range] at hi
    rw [getD_map_range _ _ _ _ hi] at hc
    obtain ⟨m, hmf, hmc⟩ := List.mem_map.mp hc
    rw [List.mem_filter] at hmf
    have hml : m < 2 ^ vcount := hb m hmf.1
    have hones : countC TChar.one (termOfNat vcount m) = i := by
      have := hmf.2
      simpa using this
    subst hmc
    refine ⟨termOfNat_length vcount m, countC_dash_termOfNat vcount m, hones, ?_, ?_⟩
    · exact (matchList_termOfNat hml).symm
    · intro x hx
      simp only [List.mem_singleton] at hx
      subst hx
      exact hmf.1

theorem combineInto_mono (t1 : Implicant) : ∀ (g2 acc : List Implicant) (c : Implicant),
    c ∈ acc → c ∈ combineInto t1 g2 acc := by
  intro g2
  induction g2 with
  | nil => intro acc c hc; exact hc
  | cons t2 g2 ih =>
    intro acc c hc
    rw [combineInto]
    rcases hdiff : diffIndex t1.term t2.term with _ | d
    · exact ih acc c hc
    · simp only []
      by_cases hex : (acc.any fun t => t.term == t1.term.set d TChar.dash)
      · simp only [hex, if_true]
        exact ih acc c hc
      · simp only [hex, if_false, Bool.false_eq_true]
        exact ih _ c (List.mem_append_left _ hc)

theorem combineInto_sub (t1 : Implicant) : ∀ (g2 acc : List Implicant) (c : Implicant),
    c ∈ combineInto t1 g2 acc →
      c ∈ acc ∨ ∃ t2 ∈ g2, ∃ d, diffIndex t1.term t2.term = some d ∧
        c.term = t1.term.set d TChar.dash ∧
        c.minterms = sortNat (t1.minterms ++ t2.minterms) := by
  intro g2
  induction g2 with
  | nil => intro acc c hc; exact Or.inl hc
  | cons t2 g2 ih =>
    intro acc c hc
    rw [combineInto] at hc
    rcases hdiff : diffIndex t1.term t2.term with _ | d <;> rw [hdiff] at hc
    · rcases ih acc c hc with h | ⟨t2x, ht2x, d, hrest⟩
      · exact Or.inl h
      · exact Or.inr ⟨t2x, List.mem_cons_of_mem _ ht2x, d, hrest⟩
    · simp only [] at hc
      by_cases hex : (acc.any fun t => t.term == t1.term.set d TChar.dash)
      · rw [if_pos hex] at hc
        rcases ih acc c hc with h | ⟨t2x, ht2x, dx, hrest⟩
        · exact Or.inl h
        · exact Or.inr ⟨t2x, List.mem_cons_of_mem _ ht2x, dx, hrest⟩
      · rw [if_neg hex] at hc
        rcases ih _ c hc with h | ⟨t2x, ht2x, dx, hrest⟩
        · rcases List.mem_append.mp h with h2 | h2
          · exact Or.inl h2
          · rw [List.mem_singleton] at h2
            subst h2
            exact Or.inr ⟨t2, List.mem_cons_self _ _, d, hdiff, rfl, rfl⟩
        · exact Or.inr ⟨t2x, List.mem_cons_of_mem _ ht2x, dx, hrest⟩

theorem combineInto_exists (t1 : Implicant) : ∀ (g2 acc : List Implicant)
    (t2 : Implicant) (d : Nat), t2 ∈ g2 → diffIndex t1.term t2.term = some d →
      ∃ c ∈ combineInto t1 g2 acc, c.term = t1.term.set d TChar.dash := by
  intro g2
  induction g2 with
  | nil => intro acc t2 d h; simp at h
  | cons t2h g2 ih =>
    intro acc t2 d ht2 hdiff
    rcases List.mem_cons.mp ht2 with heq | htail
    · subst heq
      rw [combineInto, hdiff]
      simp only []
      by_cases hex : (acc.any fun t => t.term == t1.term.set d TChar.dash)
      · rw [if_pos hex]
        obtain ⟨c, hcmem, hcterm⟩ := List.any_eq_true.mp hex
        exact ⟨c, combineInto_mono t1 g2 acc c hcmem, by simpa using hcterm⟩
      · rw [if_neg hex]
        refine ⟨⟨t1.term.set d TChar.dash, sortNat (t1.minterms ++ t2.minterms)⟩,
          combineInto_mono t1 g2 _ _ (List.mem_append_right _ (List.mem_singleton_self _)), rfl⟩
    · rw [combineInto]
      rcases hdiffh : diffIndex t1.term t2h.term with _ | dh
      · exact ih acc t2 d htail hdiff
      · simp only []
        by_cases hex : (acc.any fun t => t.term == t1.term.set dh TChar.dash)
        · rw [if_pos hex]
          exact ih acc t2 d htail hdiff
        · rw [if_neg hex]
          exact ih _ t2 d htail hdiff

theorem combinePairAux_mono : ∀ (g1 g2 acc : List Implicant) (c : Implicant),
    c ∈ acc → c ∈ combinePairAux g1 g2 acc := by
  intro g1
  induction g1 with
  | nil => intro g2 acc c hc; exact hc
  | cons t1 g1 ih =>
    intro g2 acc c hc
    rw [combinePairAux]
    exact ih g2 _ c (combineInto_mono t1 g2 acc c hc)

theorem combinePairAux_sub : ∀ (g1 g2 acc : List Implicant) (c : Implicant),
    c ∈ combinePairAux g1 g2 acc →
      c ∈ acc ∨ ∃ t1 ∈ g1, ∃ t2 ∈ g2, ∃ d, diffIndex t1.term t2.term = some d ∧
        c.term = t1.term.set d TChar.dash ∧
        c.minterms = sortNat (t1.minterms ++ t2.minterms) := by
  intro g1
  induction g1 with
  | nil => intro g2 acc c hc; exact Or.inl hc
  | cons t1 g1 ih =>
    intro g2 acc c hc
    rw [combinePairAux] at hc
    rcases ih g2 _ c hc with h | ⟨t1x, ht1x, rest⟩
    · rcases combineInto_sub t1 g2 acc c h with h2 | ⟨t2x, ht2x, d, hrest⟩
      · exact Or.inl h2
      · exact Or.inr ⟨t1, List.mem_cons_self _ _, t2x, ht2x, d, hrest⟩
    · exact Or.inr ⟨t1x, List.mem_cons_of_mem _ ht1x, rest⟩

theorem combinePair_mem_ex {g1 g2 : List Implicant} {c : Implicant}
    (hc : c ∈ combinePair g1 g2) :
    ∃ t1 ∈ g1, ∃ t2 ∈ g2, ∃ d, diffIndex t1.term t2.term = some d ∧
      c.term = t1.term.set d TChar.dash ∧
      c.minterms = sortNat (t1.minterms ++ t2.minterms) := by
  rcases combinePairAux_sub g1 g2 [] c hc with h | h
  · simp at h
  · exact h

theorem combinePairAux_exists : ∀ (g1 g2 acc : List Implicant) (t1 t2 : Implicant)
    (d : Nat), t1 ∈ g1 → t2 ∈ g2 → diffIndex t1.term t2.term = some d →
      ∃ c ∈ combinePairAux g1 g2 acc, c.term = t1.term.set d TChar.dash := by
  intro g1
  induction g1 with
  | nil => intro g2 acc t1 t2 d h; simp at h
  | cons t1h g1 ih =>
    intro g2 acc t1 t2 d ht1 ht2 hdiff
    rw [combinePairAux]
    rcases List.mem_cons.mp ht1 with heq | htail
    · subst heq
      obtain ⟨c, hcmem, hcterm⟩ := combineInto_exists t1 g2 acc t2 d ht2 hdiff
      exact ⟨c, combinePairAux_mono g1 g2 _ c hcmem, hcterm⟩
    · exact ih g2 _ t1 t2 d htail ht2 hdiff

theorem combinePair_exists {g1 g2 : List Implicant} {t1 t2 : Implicant} {d : Nat}
    (h1 : t1 ∈ g1) (h2 : t2 ∈ g2) (hdiff : diffIndex t1.term t2.term = some d) :
    ∃ c ∈ combinePair g1 g2, c.term = t1.term.set d TChar.dash :=
  combinePairAux_exists g1 g2 [] t1 t2 d h1 h2 hdiff

theorem countC_set : ∀ (t : List TChar) (d : Nat) (x c : TChar), d < t.length →
    countC c (t.set d x) + (if t.getD d TChar.dash = c then 1 else 0)
      = countC c t + (if x = c then 1 else 0) := by
  intro t
  induction t with
  | nil => intro d x c hd; simp at hd
  | cons e ts ih =>
    intro d x c hd
    cases d with
    | zero =>
      simp only [List.set, countC_cons, List.getD_cons_zero]
      omega
    | succ dd =>
      simp only [List.set, countC_cons, List.getD_cons_succ]
      have := ih dd x c (by simpa using hd)
      omega

theorem cube_step {vcount : Nat} {seeds : List Nat} {k i : Nat} {t1 t2 : Implicant}
    {d : Nat} (h1 : CubeOK vcount seeds k i t1) (h2 : CubeOK vcount seeds k (i + 1) t2)
    (hdiff : diffIndex t1.term t2.term = some d) :
    d < t1.term.length ∧ t1.term.getD d TChar.dash = TChar.zero ∧
    t2.term = t1.term.set d TChar.one ∧
    CubeOK vcount seeds (k + 1) i
      ⟨t1.term.set d TChar.dash, sortNat (t1.minterms ++ t2.minterms)⟩ := by
  obtain ⟨hl1, hk1, hi1, hm1, hs1⟩ := h1
  obtain ⟨hl2, hk2, hi2, hm2, hs2⟩ := h2
  obtain ⟨hd, hne, hexc⟩ := (diffIndex_eq_some_iff _ _ _).mp hdiff
  have hlen12 : t1.term.length = t2.term.length := by rw [hl1, hl2]
  have hset : t2.term = t1.term.set d (t2.term.getD d TChar.dash) :=
    eq_set_of_eq_except _ _ d hlen12 hd hexc
  have hcd := countC_set t1.term d (t2.term.getD d TChar.dash) TChar.dash hd
  have hco := countC_set t1.term d (t2.term.getD d TChar.dash) TChar.one hd
  rw [← hset] at hcd hco
  rw [hk1, hk2] at hcd
  rw [hi1, hi2] at hco
  have hax : t1.term.getD d TChar.dash = TChar.zero ∧
      t2.term.getD d TChar.dash = TChar.one := by
    rcases hA : t1.term.getD d TChar.dash with _ | _ | _ <;>
      rcases hX : t2.term.getD d TChar.dash with _ | _ | _ <;>
      rw [hA, hX] at hcd hco hne <;>
      simp at hcd hco hne ⊢ <;> omega
  obtain ⟨hAz, hXo⟩ := hax
  rw [hXo] at hset
  have hsetlen : (t1.term.set d TChar.dash).length = vcount := by
    rw [length_set]; exact hl1
  have hdashcount : countC TChar.dash (t1.term.set d TChar.dash) = k + 1 := by
    have := countC_set t1.term d TChar.dash TChar.dash hd
    rw [hAz, hk1] at this
    simp at this
    omega
  have honecount : countC TChar.one (t1.term.set d TChar.dash) = i := by
    have := countC_set t1.term d TChar.dash TChar.one hd
    rw [hAz, hi1] at this
    simp at this
    omega
  have hdisj : t1.minterms.Disjoint t2.minterms := by
    intro m hmem1 hmem2
    rw [hm1] at hmem1
    rw [hm2, hset] at hmem2
    exact matchList_set_disjoint hd hAz hmem1 hmem2
  have hperm : (t1.minterms ++ t2.minterms).Perm
      (matchList vcount (t1.term.set d TChar.dash)) := by
    apply perm_of_nodup_mem_iff
    · exact List.Nodup.append (hm1 ▸ matchList_nodup vcount t1.term)
        (hm2 ▸ matchList_nodup vcount t2.term) hdisj
    · exact matchList_nodup _ _
    · intro m
      rw [List.mem_append, hm1, hm2, hset]
      exact (matchList_set_union hd hAz m).symm
  have hmins : sortNat (t1.minterms ++ t2.minterms)
      = matchList vcount (t1.term.set d TChar.dash) :=
    sortNat_eq _ _ hperm (matchList_pairwise_lt _ _)
  refine ⟨hd, hAz, hset, hsetlen, hdashcount, honecount, hmins, ?_⟩
  intro m hmem
  have : m ∈ t1.minterms ++ t2.minterms :=
    ((List.perm_insertionSort _ _).mem_iff).mp hmem
  rcases List.mem_append.mp this with h | h
  · exact hs1 m h
  · exact hs2 m h

theorem combineRound_length (gs : List (List Implicant)) :
    (combineRound gs).length = gs.length := by
  unfold combineRound
  rw [List.length_map, List.length_range]

theorem combineRound_getD {gs : List (List Implicant)} {i : Nat} (hi : i < gs.length) :
    (combineRound gs).getD i []
      = if i + 1 < gs.length then combinePair (gs.getD i []) (gs.getD (i + 1) [])
        else [] := by
  unfold combineRound
  rw [getD_map_range _ _ _ _ hi]

theorem combineRound_inv {vcount : Nat} {seeds : List Nat} {k : Nat}
    {gs : List (List Implicant)} (hinv : InvGS vcount seeds k gs) :
    InvGS vcount seeds (k + 1) (combineRound gs) := by
  obtain ⟨hlen, hcubes⟩ := hinv
  refine ⟨by rw [combineRound_length, hlen], ?_⟩
  intro i hi c hc
  rw [combineRound_length] at hi
  rw [combineRound_getD hi] at hc
  by_cases hi1 : i + 1 < gs.length
  · rw [if_pos hi1] at hc
    obtain ⟨t1, ht1, t2, ht2, d, hdiff, hterm, hmins⟩ := combinePair_mem_ex hc
    have h1 := hcubes i hi t1 ht1
    have h2 := hcubes (i + 1) hi1 t2 ht2
    have hstep := cube_step h1 h2 hdiff
    have hc2 : c = ⟨t1.term.set d TChar.dash, sortNat (t1.minterms ++ t2.minterms)⟩ := by
      cases c
      simp only [Implicant.mk.injEq]
      exact ⟨hterm, hmins⟩
    rw [hc2]
    exact hstep.2.2.2
  · rw [if_neg hi1] at hc
    simp at hc

theorem collectPrimes_mem {gs : List (List Implicant)} {i : Nat} {c : Implicant}
    (hi : i < gs.length) (hc : c ∈ gs.getD i []) (hun : markedAt gs i c = false) :
    c ∈ collectPrimes gs := by
  unfold collectPrimes
  rw [List.mem_flatten]
  refine ⟨(gs.getD i []).filter (fun c => ! markedAt gs i c), ?_, ?_⟩
  · rw [List.mem_map]
    exact ⟨i, by rw [List.mem_range]; exact hi, rfl⟩
  · rw [List.mem_filter]
    exact ⟨hc, by rw [hun]; rfl⟩

theorem collectPrimes_sub {gs : List (List Implicant)} {c : Implicant}
    (hc : c ∈ collectPrimes gs) : ∃ i, i < gs.length ∧ c ∈ gs.getD i [] := by
  unfold collectPrimes at hc
  rw [List.mem_flatten] at hc
  obtain ⟨l, hl, hcl⟩ := hc
  rw [List.mem_map] at hl
  obtain ⟨i, hir, hli⟩ := hl
  rw [List.mem_range] at hir
  subst hli
  rw [List.mem_filter] at hcl
  exact ⟨i, hir, hcl.1⟩

theorem combineRound_covers {vcount : Nat} {seeds : List Nat} {k : Nat}
    {gs : List (List Implicant)} (hinv : InvGS vcount seeds k gs)
    {i : Nat} (hi : i < gs.length) {c : Implicant} (hc : c ∈ gs.getD i [])
    (hmarked : markedAt gs i c = true) {m : Nat} (hm : m ∈ c.minterms) :
    ∃ j, j < (combineRound gs).length ∧
      ∃ c2 ∈ (combineRound gs).getD j [], m ∈ c2.minterms := by
  have hinv2 := combineRound_inv hinv
  obtain ⟨hlen, hcubes⟩ := hinv
  obtain ⟨hlen2, hcubes2⟩ := hinv2
  unfold markedAt at hmarked
  rcases Bool.or_eq_true_iff.mp hmarked with hcase | hcase
  all_goals rw [Bool.and_eq_true] at hcase
  · -- partner in the group above
    have hi1 : i + 1 < gs.length := by
      have := hcase.1; simpa using this
    obtain ⟨u, hu, hdiffu⟩ := List.any_eq_true.mp hcase.2
    obtain ⟨d, hdiff⟩ := Option.isSome_iff_exists.mp hdiffu
    have h1 := hcubes i hi c hc
    have h2 := hcubes (i + 1) hi1 u hu
    have hstep := cube_step h1 h2 hdiff
    obtain ⟨c2, hc2mem, hc2term⟩ := combinePair_exists hc hu hdiff
    have hc2in : c2 ∈ (combineRound gs).getD i [] := by
      rw [combineRound_getD hi, if_pos hi1]
      exact hc2mem
    refine ⟨i, by rw [combineRound_length]; exact hi, c2, hc2in, ?_⟩
    have hok2 := hcubes2 i (by rw [combineRound_length]; exact hi) c2 hc2in
    rw [hok2.2.2.2.1, hc2term]
    rw [h1.2.2.2.1] at hm
    exact (matchList_set_union hstep.1 hstep.2.1 m).mpr (Or.inl hm)
  · -- partner in the group below
    have hipos : 0 < i := by
      have := hcase.1; simpa using this
    obtain ⟨u, hu, hdiffu⟩ := List.any_eq_true.mp hcase.2
    obtain ⟨d, hdiff⟩ := Option.isSome_iff_exists.mp hdiffu
    have hieq : (i - 1) + 1 = i := Nat.succ_pred_eq_of_pos hipos
    have hiprev : i - 1 < gs.length := by omega
    have h1 := hcubes (i - 1) hiprev u hu
    have h2 : CubeOK vcount seeds k ((i - 1) + 1) c := by
      rw [hieq]; exact hcubes i hi c hc
    have hstep := cube_step h1 h2 hdiff
    have hi1 : (i - 1) + 1 < gs.length := by omega
    have hcprev : c ∈ gs.getD ((i - 1) + 1) [] := by rw [hieq]; exact hc
    obtain ⟨c2, hc2mem, hc2term⟩ := combinePair_exists hu hcprev hdiff
    have hc2in : c2 ∈ (combineRound gs).getD (i - 1) [] := by
      rw [combineRound_getD hiprev, if_pos hi1]
      exact hc2mem
    refine ⟨i - 1, by rw [combineRound_length]; omega, c2, hc2in, ?_⟩
    have hok2 := hcubes2 (i - 1) (by rw [combineRound_length]; omega) c2 hc2in
    rw [hok2.2.2.2.1, hc2term]
    rw [h2.2.2.2.1, hstep.2.2.1] at hm
    exact (matchList_set_union hstep.1 hstep.2.1 m).mpr (Or.inr hm)

theorem getD_eq_getElem {gs : List (List Implicant)} {i : Nat} (hi : i < gs.length) :
    gs.getD i [] = gs[i] := by
  rw [List.getD_eq_getElem?_getD, List.getElem?_eq_getElem hi]
  rfl

theorem not_all_empty_of_cube {gs : List (List Implicant)} {i : Nat} {c : Implicant}
    (hi : i < gs.length) (hc : c ∈ gs.getD i []) :
    gs.all (fun g => g.isEmpty) = false := by
  rcases hall : gs.all (fun g => g.isEmpty) with _ | _
  · rfl
  · exfalso
    have hgmem : gs.getD i [] ∈ gs := by
      rw [getD_eq_getElem hi]
      exact List.getElem_mem hi
    have := List.all_eq_true.mp hall _ hgmem
    rw [List.isEmpty_iff] at this
    rw [this] at hc
    simp at hc

theorem exists_cube_of_not_all_empty {gs : List (List Implicant)}
    (h : gs.all (fun g => g.isEmpty) = false) :
    ∃ i, i < gs.length ∧ ∃ c, c ∈ gs.getD i [] := by
  obtain ⟨g, hg, hne⟩ := List.all_eq_false.mp h
  obtain ⟨i, hi, hgi⟩ := List.mem_iff_getElem.mp hg
  have hgne : g ≠ [] := by
    intro h2
    rw [h2] at hne
    simp at hne
  obtain ⟨c, hcg⟩ := List.exists_mem_of_ne_nil g hgne
  refine ⟨i, hi, c, ?_⟩
  rw [getD_eq_getElem hi, hgi]
  exact hcg

theorem k_le_vcount_of_cube {vcount : Nat} {seeds : List Nat} {k : Nat}
    {gs : List (List Implicant)} (hinv : InvGS vcount seeds k gs) {i : Nat}
    {c : Implicant} (hi : i < gs.length) (hc : c ∈ gs.getD i []) : k ≤ vcount := by
  have hok := hinv.2 i hi c hc
  have := countC_le_length TChar.dash c.term
  rw [hok.2.1, hok.1] at this
  exact this

theorem qmLoop_sound {vcount : Nat} {seeds : List Nat} : ∀ (fuel : Nat) (k : Nat)
    (gs : List (List Implicant)), InvGS vcount seeds k gs →
    ∀ p ∈ qmLoop fuel gs, ∃ kp ip, CubeOK vcount seeds kp ip p := by
  intro fuel
  induction fuel with
  | zero => intro k gs hinv p hp; simp [qmLoop] at hp
  | succ fuel ih =>
    intro k gs hinv p hp
    rw [qmLoop] at hp
    by_cases hempty : gs.all (fun g => g.isEmpty)
    · rw [if_pos hempty] at hp; simp at hp
    · rw [if_neg hempty] at hp
      simp only [] at hp
      by_cases hnext : (combineRound gs).all (fun g => g.isEmpty)
      · rw [if_pos hnext] at hp
        obtain ⟨i, hi, hci⟩ := collectPrimes_sub hp
        exact ⟨k, i, hinv.2 i hi p hci⟩
      · rw [if_neg hnext] at hp
        rcases List.mem_append.mp hp with h | h
        · obtain ⟨i, hi, hci⟩ := collectPrimes_sub h
          exact ⟨k, i, hinv.2 i hi p hci⟩
        · exact ih (k + 1) (combineRound gs) (combineRound_inv hinv) p h

theorem qmLoop_covers {vcount : Nat} {seeds : List Nat} : ∀ (fuel : Nat) (k : Nat)
    (gs : List (List Implicant)), InvGS vcount seeds k gs →
    vcount + 1 - k ≤ fuel →
    ∀ m, (∃ i, i < gs.length ∧ ∃ c ∈ gs.getD i [], m ∈ c.minterms) →
    ∃ p ∈ qmLoop fuel gs, m ∈ p.minterms := by
  intro fuel
  induction fuel with
  | zero =>
    intro k gs hinv hfuel m ⟨i, hi, c, hc, hm⟩
    exfalso
    have hk := k_le_vcount_of_cube hinv hi hc
    omega
  | succ fuel ih =>
    intro k gs hinv hfuel m ⟨i, hi, c, hc, hm⟩
    have hk := k_le_vcount_of_cube hinv hi hc
    have hempty := not_all_empty_of_cube hi hc
    rw [qmLoop, hempty]
    simp only [Bool.false_eq_true, if_false]
    by_cases hmark : markedAt gs i c
    · -- the cube combined: its positions survive into the next round
      obtain ⟨j, hj, c2, hc2, hm2⟩ := combineRound_covers hinv hi hc hmark hm
      have hnext : (combineRound gs).all (fun g => g.isEmpty) = false :=
        not_all_empty_of_cube hj hc2
      rw [hnext]
      simp only [Bool.false_eq_true, if_false]
      have hrec := ih (k + 1) (combineRound gs) (combineRound_inv hinv)
        (by omega) m ⟨j, hj, c2, hc2, hm2⟩
      obtain ⟨p, hp, hpm⟩ := hrec
      exact ⟨p, List.mem_append_right _ hp, hpm⟩
    · -- the cube survives as a prime of this round
      have hprime := collectPrimes_mem hi hc (by rwa [Bool.not_eq_true] at hmark)
      by_cases hnext : (combineRound gs).all (fun g => g.isEmpty)
      · rw [if_pos hnext]
        exact ⟨c, hprime, hm⟩
      · rw [if_neg hnext]
        exact ⟨c, List.mem_append_left _ hprime, hm⟩

theorem qmLoop_fuel {vcount : Nat} {seeds : List Nat} : ∀ (fuel : Nat) (k : Nat)
    (gs : List (List Implicant)), InvGS vcount seeds k gs →
    vcount + 1 - k ≤ fuel → qmLoop fuel gs = qmLoop (fuel + 1) gs := by
  intro fuel
  induction fuel with
  | zero =>
    intro k gs hinv hfuel
    have hempty : gs.all (fun g => g.isEmpty) = true := by
      rcases hall : gs.all (fun g => g.isEmpty) with _ | _
      · exfalso
        obtain ⟨i, hi, c, hc⟩ := exists_cube_of_not_all_empty hall
        have := k_le_vcount_of_cube hinv hi hc
        omega
      · rfl
    rw [qmLoop, qmLoop, hempty]
    simp
  | succ fuel ih =>
    intro k gs hinv hfuel
    rw [qmLoop]
    conv_rhs => rw [qmLoop]
    by_cases hempty : gs.all (fun g => g.isEmpty)
    · rw [if_pos hempty, if_pos hempty]
    · rw [if_neg hempty, if_neg hempty]
      simp only []
      by_cases hnext : (combineRound gs).all (fun g => g.isEmpty)
      · rw [if_pos hnext, if_pos hnext]
      · rw [if_neg hnext, if_neg hnext]
        obtain ⟨i, hi, c, hc⟩ := exists_cube_of_not_all_empty
          (by rcases h : gs.all (fun g => g.isEmpty) with _ | _
              · rfl
              · exact absurd h hempty)
        have hk := k_le_vcount_of_cube hinv hi hc
        rw [ih (k + 1) (combineRound gs) (combineRound_inv hinv) (by omega)]

theorem dedupByTermGo_sub : ∀ (l : List Implicant) (seen : List (List TChar))
    (q : Implicant), q ∈ dedupByTermGo l seen → q ∈ l := by
  intro l
  induction l with
  | nil => intro seen q hq; simp [dedupByTermGo] at hq
  | cons q0 rest ih =>
    intro seen q hq
    rw [dedupByTermGo] at hq
    by_cases hc : seen.contains q0.term
    · rw [if_pos hc] at hq
      exact List.mem_cons_of_mem _ (ih seen q hq)
    · rw [if_neg hc] at hq
      rcases List.mem_cons.mp hq with h | h
      · rw [h]; exact List.mem_cons_self _ _
      · exact List.mem_cons_of_mem _ (ih _ q h)

theorem dedupByTerm_sub : ∀ (l : List Implicant) (q : Implicant),
    q ∈ dedupByTerm l → q ∈ l :=
  fun l q hq => dedupByTermGo_sub l [] q hq

theorem dedupByTermGo_complete : ∀ (l : List Implicant) (seen : List (List TChar))
    (p : Implicant), p ∈ l → p.term ∉ seen →
    ∃ q ∈ dedupByTermGo l seen, q.term = p.term := by
  intro l
  induction l with
  | nil => intro seen p hp; simp at hp
  | cons q0 rest ih =>
    intro seen p hp hseen
    rw [dedupByTermGo]
    by_cases hc : seen.contains q0.term
    · rw [if_pos hc]
      rcases List.mem_cons.mp hp with h | h
      · exfalso
        apply hseen
        rw [h]
        exact List.elem_iff.mp hc
      · exact ih seen p h hseen
    · rw [if_neg hc]
      rcases List.mem_cons.mp hp with h | h
      · exact ⟨q0, List.mem_cons_self _ _, by rw [h]⟩
      · by_cases hterm : p.term = q0.term
        · exact ⟨q0, List.mem_cons_self _ _, hterm.symm⟩
        · have hseen2 : p.term ∉ q0.term :: seen := by
            intro hmem
            rcases List.mem_cons.mp hmem with h2 | h2
            · exact hterm h2
            · exact hseen h2
          obtain ⟨q, hq, hqt⟩ := ih _ p h hseen2
          exact ⟨q, List.mem_cons_of_mem _ hq, hqt⟩

theorem dedupByTerm_complete : ∀ (l : List Implicant) (p : Implicant), p ∈ l →
    ∃ q ∈ dedupByTerm l, q.term = p.term :=
  fun l p hp => dedupByTermGo_complete l [] p hp (by simp)

theorem dedupImpGo_sub : ∀ (l seen : List Implicant) (q : Implicant),
    q ∈ dedupImpGo l seen → q ∈ l := by
  intro l
  induction l with
  | nil => intro seen q hq; simp [dedupImpGo] at hq
  | cons q0 rest ih =>
    intro seen q hq
    rw [dedupImpGo] at hq
    by_cases hc : seen.contains q0
    · rw [if_pos hc] at hq
      exact List.mem_cons_of_mem _ (ih seen q hq)
    · rw [if_neg hc] at hq
      rcases List.mem_cons.mp hq with h | h
      · rw [h]; exact List.mem_cons_self _ _
      · exact List.mem_cons_of_mem _ (ih _ q h)

theorem dedupImp_sub : ∀ (l : List Implicant) (q : Implicant),
    q ∈ dedupImp l → q ∈ l :=
  fun l q hq => dedupImpGo_sub l [] q hq

theorem dedupImpGo_mem : ∀ (l seen : List Implicant) (p : Implicant), p ∈ l →
    p ∉ seen → p ∈ dedupImpGo l seen := by
  intro l
  induction l with
  | nil => intro seen p hp; simp at hp
  | cons q0 rest ih =>
    intro seen p hp hseen
    rw [dedupImpGo]
    by_cases hc : seen.contains q0
    · rw [if_pos hc]
      rcases List.mem_cons.mp hp with h | h
      · exfalso
        apply hseen
        rw [h]
        exact List.elem_iff.mp hc
      · exact ih seen p h hseen
    · rw [if_neg hc]
      rcases List.mem_cons.mp hp with h | h
      · rw [h]; exact List.mem_cons_self _ _
      · by_cases heq : p = q0
        · rw [heq]; exact List.mem_cons_self _ _
        · have hseen2 : p ∉ q0 :: seen := by
            intro hmem
            rcases List.mem_cons.mp hmem with h2 | h2
            · exact heq h2
            · exact hseen h2
          exact List.mem_cons_of_mem _ (ih _ p h hseen2)

theorem dedupImp_head : ∀ (l : List Implicant) (p : Implicant), p ∈ l →
    ∃ q ∈ dedupImp l, q = p :=
  fun l p hp => ⟨p, dedupImpGo_mem l [] p hp (by simp), rfl⟩

/-! ## Covering-phase invariants -/

/-- Invariant of the covering state `(finalPIs, remainingMinterms)` relative
to the candidate primes `uniqs` and the required positions `mts`:
chosen primes come from `uniqs`, remaining positions come from `mts`, every
required position is remaining or covered, and no chosen prime covers a
remaining position. -/
def StInv (uniqs : List Implicant) (mts : List Nat)
    (st : List Implicant × List Nat) : Prop :=
  (∀ q ∈ st.1, q ∈ uniqs) ∧
  (∀ m ∈ st.2, m ∈ mts) ∧
  (∀ m ∈ mts, m ∈ st.2 ∨ ∃ q ∈ st.1, m ∈ q.minterms) ∧
  (∀ q ∈ st.1, ∀ m ∈ st.2, m ∉ q.minterms)

theorem stInv_push {uniqs : List Implicant} {mts : List Nat}
    {st : List Implicant × List Nat} {q : Implicant} (hq : q ∈ uniqs)
    (hinv : StInv uniqs mts st) :
    StInv uniqs mts (st.1 ++ [q], st.2.filter (fun m => ! q.minterms.contains m)) := by
  obtain ⟨h1, h2, h3, h4⟩ := hinv
  refine ⟨?_, ?_, ?_, ?_⟩
  · intro x hx
    rcases List.mem_append.mp hx with h | h
    · exact h1 x h
    · rw [List.mem_singleton] at h; rw [h]; exact hq
  · intro m hm
    rw [List.mem_filter] at hm
    exact h2 m hm.1
  · intro m hm
    rcases h3 m hm with h | ⟨x, hx, hmx⟩
    · by_cases hcov : m ∈ q.minterms
      · exact Or.inr ⟨q, List.mem_append_right _ (List.mem_singleton_self _), hcov⟩
      · refine Or.inl ?_
        rw [List.mem_filter]
        refine ⟨h, ?_⟩
        simpa using hcov
    · exact Or.inr ⟨x, List.mem_append_left _ hx, hmx⟩
  · intro x hx m hm
    rw [List.mem_filter] at hm
    rcases List.mem_append.mp hx with h | h
    · exact h4 x h m hm.1
    · rw [List.mem_singleton] at h
      rw [h]
      have := hm.2
      simpa using this

theorem foldl_push_inv {uniqs : List Implicant} {mts : List Nat} :
    ∀ (l : List Implicant) (st : List Implicant × List Nat),
    (∀ q ∈ l, q ∈ uniqs) → StInv uniqs mts st →
    StInv uniqs mts (l.foldl
      (fun st2 q => (st2.1 ++ [q], st2.2.filter (fun m => ! q.minterms.contains m)))
      st) := by
  intro l
  induction l with
  | nil => intro st _ hinv; exact hinv
  | cons q l ih =>
    intro st hl hinv
    rw [List.foldl_cons]
    exact ih _ (fun x hx => hl x (List.mem_cons_of_mem _ hx))
      (stInv_push (hl q (List.mem_cons_self _ _)) hinv)

theorem foldl_push_fst_mono :
    ∀ (l : List Implicant) (st : List Implicant × List Nat) (x : Implicant),
    x ∈ st.1 → x ∈ (l.foldl
      (fun st2 q => (st2.1 ++ [q], st2.2.filter (fun m => ! q.minterms.contains m)))
      st).1 := by
  intro l
  induction l with
  | nil => intro st x hx; exact hx
  | cons q l ih =>
    intro st x hx
    rw [List.foldl_cons]
    exact ih _ x (List.mem_append_left _ hx)

theorem foldl_push_fst_adds :
    ∀ (l : List Implicant) (st : List Implicant × List Nat) (q : Implicant),
    q ∈ l → q ∈ (l.foldl
      (fun st2 q => (st2.1 ++ [q], st2.2.filter (fun m => ! q.minterms.contains m)))
      st).1 := by
  intro l
  induction l with
  | nil => intro st q hq; simp at hq
  | cons q0 l ih =>
    intro st q hq
    rw [List.foldl_cons]
    rcases List.mem_cons.mp hq with h | h
    · subst h
      exact foldl_push_fst_mono l _ q (List.mem_append_right _ (List.mem_singleton_self _))
    · exact ih _ q h

theorem essLoop_inv {uniqs : List Implicant} {mts : List Nat} :
    ∀ (fuel : Nat) (st : List Implicant × List Nat), StInv uniqs mts st →
    StInv uniqs mts (essLoop fuel uniqs st) := by
  intro fuel
  induction fuel with
  | zero => intro st hinv; exact hinv
  | succ fuel ih =>
    intro st hinv
    rw [essLoop]
    by_cases hre : st.2.isEmpty
    · rw [if_pos hre]; exact hinv
    · rw [if_neg hre]
      simp only []
      by_cases hne : (dedupImp ((st.2.filter
          (fun m => (coverageOf uniqs m).length == 1)).filterMap
          (fun m => (coverageOf uniqs m).head?))).isEmpty
      · rw [if_pos hne]; exact hinv
      · rw [if_neg hne]
        apply ih
        apply foldl_push_inv _ _ _ hinv
        intro q hq
        have hq2 := dedupImp_sub _ q hq
        obtain ⟨m, _, hm⟩ := List.mem_filterMap.mp hq2
        have := List.mem_of_mem_head? hm
        unfold coverageOf at this
        rw [List.mem_filter] at this
        exact this.1

theorem essLoop_fst_mono {uniqs : List Implicant} :
    ∀ (fuel : Nat) (st : List Implicant × List Nat) (x : Implicant),
    x ∈ st.1 → x ∈ (essLoop fuel uniqs st).1 := by
  intro fuel
  induction fuel with
  | zero => intro st x hx; exact hx
  | succ fuel ih =>
    intro st x hx
    rw [essLoop]
    by_cases hre : st.2.isEmpty
    · rw [if_pos hre]; exact hx
    · rw [if_neg hre]
      simp only []
      by_cases hne : (dedupImp ((st.2.filter
          (fun m => (coverageOf uniqs m).length == 1)).filterMap
          (fun m => (coverageOf uniqs m).head?))).isEmpty
      · rw [if_pos hne]; exact hx
      · rw [if_neg hne]
        exact ih _ x (foldl_push_fst_mono _ _ x hx)

theorem pickBest_fold_shape (fp : List Implicant) (rem : List Nat) :
    ∀ (l : List Implicant) (acc : Option Implicant × Int),
    (acc = (none, -1) ∨ ∃ q, ¬ fp.contains q ∧
        acc = (some q, ((q.minterms.filter (fun m => rem.contains m)).length : Int))) →
    (l.foldl
        (fun acc q =>
          if fp.contains q then acc
          else
            if acc.2 < ((q.minterms.filter (fun m => rem.contains m)).length : Int)
            then (some q, ((q.minterms.filter (fun m => rem.contains m)).length : Int))
            else acc)
        acc = (none, -1)) ∨
      ∃ q, (q ∈ l ∨ acc.1 = some q) ∧ ¬ fp.contains q ∧
        l.foldl
          (fun acc q =>
            if fp.contains q then acc
            else
              if acc.2 < ((q.minterms.filter (fun m => rem.contains m)).length : Int)
              then (some q, ((q.minterms.filter (fun m => rem.contains m)).length : Int))
              else acc)
          acc = (some q, ((q.minterms.filter (fun m => rem.contains m)).length : Int)) := by
  intro l
  induction l with
  | nil =>
    intro acc hacc
    rcases hacc with h | ⟨q, hnc, heq⟩
    · exact Or.inl h
    · exact Or.inr ⟨q, Or.inr (by rw [heq]), hnc, heq⟩
  | cons q0 l ih =>
    intro acc hacc
    rw [List.foldl_cons]
    by_cases hc0 : fp.contains q0
    · rw [if_pos hc0]
      rcases ih acc hacc with h | ⟨q, hprov, hnc, heq⟩
      · exact Or.inl h
      · refine Or.inr ⟨q, ?_, hnc, heq⟩
        rcases hprov with h | h
        · exact Or.inl (List.mem_cons_of_mem _ h)
        · exact Or.inr h
    · rw [if_neg hc0]
      by_cases hlt : acc.2 < ((q0.minterms.filter (fun m => rem.contains m)).length : Int)
      · rw [if_pos hlt]
        have hacc2 : ((some q0,
            ((q0.minterms.filter (fun m => rem.contains m)).length : Int))
              : Option Implicant × Int) = (none, -1) ∨
            ∃ q, ¬ fp.contains q ∧ ((some q0,
              ((q0.minterms.filter (fun m => rem.contains m)).length : Int))
                : Option Implicant × Int)
              = (some q, ((q.minterms.filter (fun m => rem.contains m)).length : Int)) :=
          Or.inr ⟨q0, hc0, rfl⟩
        rcases ih _ hacc2 with h | ⟨q, hprov, hnc, heq⟩
        · exact Or.inl h
        · refine Or.inr ⟨q, ?_, hnc, heq⟩
          rcases hprov with h | h
          · exact Or.inl (List.mem_cons_of_mem _ h)
          · simp only [] at h
            injection h with h
            exact Or.inl (by rw [h]; exact List.mem_cons_self _ _)
      · rw [if_neg hlt]
        rcases ih acc hacc with h | ⟨q, hprov, hnc, heq⟩
        · exact Or.inl h
        · refine Or.inr ⟨q, ?_, hnc, heq⟩
          rcases hprov with h | h
          · exact Or.inl (List.mem_cons_of_mem _ h)
          · exact Or.inr h

theorem pickBest_fold_ge (fp : List Implicant) (rem : List Nat) :
    ∀ (l : List Implicant) (acc : Option Implicant × Int),
      acc.2 ≤ (l.foldl
        (fun acc q =>
          if fp.contains q then acc
          else
            if acc.2 < ((q.minterms.filter (fun m => rem.contains m)).length : Int)
            then (some q, ((q.minterms.filter (fun m => rem.contains m)).length : Int))
            else acc)
        acc).2 ∧
      ∀ q ∈ l, ¬ fp.contains q →
        ((q.minterms.filter (fun m => rem.contains m)).length : Int) ≤ (l.foldl
          (fun acc q =>
            if fp.contains q then acc
            else
              if acc.2 < ((q.minterms.filter (fun m => rem.contains m)).length : Int)
              then (some q, ((q.minterms.filter (fun m => rem.contains m)).length : Int))
              else acc)
          acc).2 := by
  intro l
  induction l with
  | nil => intro acc; exact ⟨le_refl _, by intro q hq; simp at hq⟩
  | cons q0 l ih =>
    intro acc
    rw [List.foldl_cons]
    by_cases hc0 : fp.contains q0
    · rw [if_pos hc0]
      refine ⟨(ih acc).1, ?_⟩
      intro q hq hnc
      rcases List.mem_cons.mp hq with h | h
      · subst h; exact absurd hc0 hnc
      · exact (ih acc).2 q h hnc
    · rw [if_neg hc0]
      by_cases hlt : acc.2 < ((q0.minterms.filter (fun m => rem.contains m)).length : Int)
      · rw [if_pos hlt]
        have hmono := (ih ((some q0,
          ((q0.minterms.filter (fun m => rem.contains m)).length : Int)))).1
        refine ⟨le_trans (le_of_lt hlt) hmono, ?_⟩
        intro q hq hnc
        rcases List.mem_cons.mp hq with h | h
        · subst h; exact hmono
        · exact (ih _).2 q h hnc
      · rw [if_neg hlt]
        refine ⟨(ih acc).1, ?_⟩
        intro q hq hnc
        rcases List.mem_cons.mp hq with h | h
        · subst h
          exact le_trans (le_of_not_lt hlt) (ih acc).1
        · exact (ih acc).2 q h hnc

theorem pickBest_success {uniqs fp : List Implicant} {rem : List Nat}
    (hex : ∃ q ∈ uniqs, ¬ fp.contains q ∧
      1 ≤ (q.minterms.filter (fun m => rem.contains m)).length) :
    ∃ q2, pickBest uniqs fp rem
        = (some q2, ((q2.minterms.filter (fun m => rem.contains m)).length : Int)) ∧
      q2 ∈ uniqs ∧ ¬ fp.contains q2 ∧
      0 < ((q2.minterms.filter (fun m => rem.contains m)).length : Int) := by
  obtain ⟨q, hq, hnc, hcnt⟩ := hex
  have hpb : pickBest uniqs fp rem
      = uniqs.foldl (fun acc q => if fp.contains q then acc
          else if acc.2 < ((q.minterms.filter (fun m => rem.contains m)).length : Int)
          then (some q, ((q.minterms.filter (fun m => rem.contains m)).length : Int))
          else acc) (none, -1) := rfl
  have hge := (pickBest_fold_ge fp rem uniqs (none, -1)).2 q hq hnc
  have h1le : (1 : Int) ≤ ((q.minterms.filter (fun m => rem.contains m)).length : Int) := by
    exact_mod_cast hcnt
  rcases pickBest_fold_shape fp rem uniqs (none, -1) (Or.inl rfl) with h | ⟨q2, hprov, hnc2, heq⟩
  · exfalso
    rw [h] at hge
    have h2 : ((q.minterms.filter (fun m => rem.contains m)).length : Int) ≤ -1 := hge
    omega
  · refine ⟨q2, by rw [hpb]; exact heq, ?_, hnc2, ?_⟩
    · rcases hprov with h | h
      · exact h
      · simp at h
    · rw [heq] at hge
      have h2 : ((q.minterms.filter (fun m => rem.contains m)).length : Int)
          ≤ ((q2.minterms.filter (fun m => rem.contains m)).length : Int) := hge
      omega

theorem filter_length_lt {α : Type} (p : α → Bool) :
    ∀ (l : List α) (x : α), x ∈ l → p x = false → (l.filter p).length < l.length := by
  intro l
  induction l with
  | nil => intro x hx; simp at hx
  | cons a l ih =>
    intro x hx hpx
    rcases List.mem_cons.mp hx with h | h
    · subst h
      rw [List.filter_cons, hpx]
      simp only [List.length_cons]
      exact Nat.lt_succ_of_le (List.length_filter_le _ _)
    · rw [List.filter_cons]
      rcases hpa : p a with _ | _
      · simp only [List.length_cons]
        exact Nat.lt_succ_of_lt (ih x h hpx)
      · simp only [List.length_cons]
        exact Nat.succ_lt_succ (ih x h hpx)

theorem greedyLoop_master {uniqs : List Implicant} {mts : List Nat}
    (hcov : ∀ m ∈ mts, ∃ q ∈ uniqs, m ∈ q.minterms) :
    ∀ (fuel : Nat) (st : List Implicant × List Nat), st.2.length ≤ fuel →
    StInv uniqs mts st →
    (greedyLoop fuel uniqs st).2 = [] ∧ StInv uniqs mts (greedyLoop fuel uniqs st) ∧
    ∀ x ∈ st.1, x ∈ (greedyLoop fuel uniqs st).1 := by
  intro fuel
  induction fuel with
  | zero =>
    intro st hlen hinv
    have h2 : st.2 = [] := List.length_eq_zero.mp (Nat.le_zero.mp hlen)
    exact ⟨h2, hinv, fun x hx => hx⟩
  | succ fuel ih =>
    intro st hlen hinv
    rw [greedyLoop]
    by_cases hre : st.2.isEmpty
    · rw [if_pos hre]
      exact ⟨List.isEmpty_iff.mp hre, hinv, fun x hx => hx⟩
    · rw [if_neg hre]
      have hne : st.2 ≠ [] := by
        intro h
        rw [h] at hre
        exact hre rfl
      obtain ⟨m0, hm0⟩ := List.exists_mem_of_ne_nil _ hne
      obtain ⟨q, hq, hqm⟩ := hcov m0 (hinv.2.1 m0 hm0)
      have hnc : ¬ st.1.contains q := by
        intro hc
        exact hinv.2.2.2 q (List.elem_iff.mp hc) m0 hm0 hqm
      have hcnt : 1 ≤ (q.minterms.filter (fun m => st.2.contains m)).length := by
        have hmem : m0 ∈ q.minterms.filter (fun m => st.2.contains m) := by
          rw [List.mem_filter]
          exact ⟨hqm, List.elem_iff.mpr hm0⟩
        have := List.ne_nil_of_mem hmem
        have hp := List.length_pos.mpr this
        omega
      obtain ⟨q2, hpe, hq2u, hq2nc, hpos⟩ :=
        pickBest_success ⟨q, hq, hnc, hcnt⟩
      rw [hpe]
      simp only []
      rw [if_pos hpos]
      have hposn : 0 < (q2.minterms.filter (fun m => st.2.contains m)).length := by
        exact_mod_cast hpos
      have hq2ne : q2.minterms.filter (fun m => st.2.contains m) ≠ [] := by
        intro h
        rw [h] at hposn
        simp at hposn
      obtain ⟨m2, hm2⟩ := List.exists_mem_of_ne_nil _ hq2ne
      rw [List.mem_filter] at hm2
      have hm2r : m2 ∈ st.2 := List.elem_iff.mp hm2.2
      have hlt : (st.2.filter (fun m => ! q2.minterms.contains m)).length < st.2.length := by
        apply filter_length_lt _ _ m2 hm2r
        have : q2.minterms.contains m2 = true := List.elem_iff.mpr hm2.1
        rw [this]
        rfl
      have hinv2 := stInv_push hq2u hinv
      have hrec := ih (st.1 ++ [q2], st.2.filter (fun m => ! q2.minterms.contains m))
        (show (st.2.filter (fun m => ! q2.minterms.contains m)).length ≤ fuel by omega)
        hinv2
      refine ⟨hrec.1, hrec.2.1, ?_⟩
      intro x hx
      exact hrec.2.2 x (List.mem_append_left _ hx)

/-! ## Pipeline facts -/

theorem seedGroups_length (vcount : Nat) (mts dcs : List Nat) :
    (seedGroups vcount mts dcs).length = vcount + 1 := by
  unfold seedGroups
  simp

theorem qmUniqs_sound {vcount : Nat} {mts dcs : List Nat}
    (hb : ∀ m ∈ mts ++ dcs, m < 2 ^ vcount) :
    ∀ q ∈ qmUniqs vcount mts dcs,
      q.term.length = vcount ∧ q.minterms = matchList vcount q.term ∧
      ∀ m ∈ q.minterms, m ∈ mts ++ dcs := by
  intro q hq
  have hsub := dedupByTerm_sub _ q hq
  obtain ⟨kp, ip, hok⟩ := qmLoop_sound (vcount + 1) 0 _ (seedGroups_inv vcount mts dcs hb)
    q hsub
  exact ⟨hok.1, hok.2.2.2.1, hok.2.2.2.2⟩

theorem qmPrimes_sound {vcount : Nat} {mts dcs : List Nat}
    (hb : ∀ m ∈ mts ++ dcs, m < 2 ^ vcount) :
    ∀ p ∈ qmPrimes vcount mts dcs,
      p.term.length = vcount ∧ p.minterms = matchList vcount p.term := by
  intro p hp
  obtain ⟨kp, ip, hok⟩ := qmLoop_sound (vcount + 1) 0 _ (seedGroups_inv vcount mts dcs hb)
    p hp
  exact ⟨hok.1, hok.2.2.2.1⟩

theorem seed_cube_mem {vcount : Nat} {mts dcs : List Nat} {m : Nat}
    (hm : m ∈ mts ++ dcs) :
    (⟨termOfNat vcount m, [m]⟩ : Implicant)
      ∈ (seedGroups vcount mts dcs).getD (countC TChar.one (termOfNat vcount m)) [] := by
  have hones : countC TChar.one (termOfNat vcount m) ≤ vcount := by
    have := countC_le_length TChar.one (termOfNat vcount m)
    rw [termOfNat_length] at this
    exact this
  unfold seedGroups
  rw [getD_map_range _ _ _ _ (by simpa using Nat.lt_succ_of_le hones)]
  rw [List.mem_map]
  refine ⟨m, ?_, rfl⟩
  rw [List.mem_filter]
  exact ⟨hm, by simp⟩

theorem qmPrimes_cover {vcount : Nat} {mts dcs : List Nat}
    (hb : ∀ m ∈ mts ++ dcs, m < 2 ^ vcount) :
    ∀ m ∈ mts ++ dcs, ∃ p ∈ qmPrimes vcount mts dcs, m ∈ p.minterms := by
  intro m hm
  have hones : countC TChar.one (termOfNat vcount m) ≤ vcount := by
    have := countC_le_length TChar.one (termOfNat vcount m)
    rw [termOfNat_length] at this
    exact this
  apply qmLoop_covers (vcount + 1) 0 _ (seedGroups_inv vcount mts dcs hb) (by omega) m
  refine ⟨countC TChar.one (termOfNat vcount m), ?_, ⟨termOfNat vcount m, [m]⟩,
    seed_cube_mem hm, ?_⟩
  · rw [seedGroups_length]
    omega
  · simp

theorem qmUniqs_complete {vcount : Nat} {mts dcs : List Nat}
    (hb : ∀ m ∈ mts ++ dcs, m < 2 ^ vcount) :
    ∀ m ∈ mts ++ dcs, ∃ q ∈ qmUniqs vcount mts dcs, m ∈ q.minterms := by
  intro m hm
  obtain ⟨p, hp, hpm⟩ := qmPrimes_cover hb m hm
  obtain ⟨q, hq, hqt⟩ := dedupByTerm_complete _ p hp
  refine ⟨q, hq, ?_⟩
  have hqs := (qmUniqs_sound hb q hq).2.1
  have hps := (qmPrimes_sound hb p hp).2
  rw [hqs, hqt, ← hps]
  exact hpm

theorem qmCoverSt_spec {vcount : Nat} {mts dcs : List Nat}
    (hval : ValidInput vcount mts dcs) :
    (qmCoverSt vcount mts dcs).2 = [] ∧
    StInv (qmUniqs vcount mts dcs) mts (qmCoverSt vcount mts dcs) := by
  obtain ⟨hnd1, hnd2, hb1, hb2, hdisj⟩ := hval
  have hb : ∀ m ∈ mts ++ dcs, m < 2 ^ vcount := by
    intro m hm
    rcases List.mem_append.mp hm with h | h
    · exact hb1 m h
    · exact hb2 m h
  have hinit : StInv (qmUniqs vcount mts dcs) mts ([], mts) := by
    refine ⟨?_, ?_, ?_, ?_⟩
    · intro q hq; simp at hq
    · intro m hm; exact hm
    · intro m hm; exact Or.inl hm
    · intro q hq; simp at hq
  have hst1 := essLoop_inv (mts.length + 1) ([], mts) hinit
  have hcov : ∀ m ∈ mts, ∃ q ∈ qmUniqs vcount mts dcs, m ∈ q.minterms := by
    intro m hm
    exact qmUniqs_complete hb m (List.mem_append_left _ hm)
  have hg := greedyLoop_master hcov
    ((essLoop (mts.length + 1) (qmUniqs vcount mts dcs) ([], mts)).2.length + 1)
    (essLoop (mts.length + 1) (qmUniqs vcount mts dcs) ([], mts))
    (by omega) hst1
  exact ⟨hg.1, hg.2.1⟩

theorem runQM_main_terms {vcount : Nat} {mts dcs : List Nat}
    (hne : mts.isEmpty = false) (hnf : ¬ mts.length + dcs.length = 2 ^ vcount) :
    (runQM vcount mts dcs).terms
        = (qmFinalPIs vcount mts dcs).map (fun q => q.term) ∧
    (runQM vcount mts dcs).groups
        = (qmFinalPIs vcount mts dcs).map (fun q => q.minterms) := by
  unfold runQM
  rw [hne]
  simp only [Bool.false_eq_true, if_false, if_neg hnf]
  exact ⟨rfl, rfl⟩

/-! ## Denotation bridges -/

theorem evalLits_eq_matchesBits : ∀ (t : List TChar) (bs : List Bool),
    evalLits t bs = matchesBits t bs := by
  intro t
  induction t with
  | nil => intro bs; cases bs <;> rfl
  | cons c cs ih =>
    intro bs
    cases bs with
    | nil => cases c <;> rfl
    | cons b bs2 =>
      simp only [evalLits, matchesBits, ih]
      cases c <;> cases b <;> rfl

theorem evalPosLits_eq_not : ∀ (t : List TChar) (bs : List Bool),
    t.length = bs.length → evalPosLits t bs = ! evalLits t bs := by
  intro t
  induction t with
  | nil =>
    intro bs hlen
    cases bs with
    | nil => rfl
    | cons b bs2 => simp at hlen
  | cons c cs ih =>
    intro bs hlen
    cases bs with
    | nil => simp at hlen
    | cons b bs2 =>
      have htail := ih bs2 (by simpa using hlen)
      simp only [evalPosLits, evalLits, htail]
      cases c <;> cases b <;> simp

theorem evalLits_all_dash : ∀ (t : List TChar) (bs : List Bool),
    t.all (fun c => c == TChar.dash) = true → t.length = bs.length →
    evalLits t bs = true := by
  intro t
  induction t with
  | nil =>
    intro bs _ hlen
    cases bs with
    | nil => rfl
    | cons b bs2 => simp at hlen
  | cons c cs ih =>
    intro bs hall hlen
    cases bs with
    | nil => simp at hlen
    | cons b bs2 =>
      rw [List.all_cons] at hall
      rw [Bool.and_eq_true] at hall
      have hc : c = TChar.dash := by simpa using hall.1
      subst hc
      simp only [evalLits]
      rw [ih bs2 hall.2 (by simpa using hlen)]
      rfl

theorem list_all_not_any {α : Type} (p : α → Bool) :
    ∀ l : List α, l.all (fun x => ! p x) = ! l.any p := by
  intro l
  induction l with
  | nil => rfl
  | cons a l ih => simp [List.all_cons, List.any_cons, ih]

theorem list_all_congr {α : Type} (f g : α → Bool) :
    ∀ l : List α, (∀ x ∈ l, f x = g x) → l.all f = l.all g := by
  intro l
  induction l with
  | nil => intro _; rfl
  | cons a l ih =>
    intro h
    rw [List.all_cons, List.all_cons, h a (List.mem_cons_self _ _),
      ih (fun x hx => h x (List.mem_cons_of_mem _ hx))]

theorem posDenote_eq_not_sopDenote {vcount : Nat} {terms : List (List TChar)} {m : Nat}
    (hlen : ∀ t ∈ terms, t.length = vcount) :
    posDenote vcount terms m = ! sopDenote vcount terms m := by
  unfold posDenote sopDenote
  by_cases hg : terms.any (fun t => ! t.isEmpty && t.all (fun c => c == TChar.dash))
  · rw [if_pos hg]
    obtain ⟨t, ht, hprop⟩ := List.any_eq_true.mp hg
    rw [Bool.and_eq_true] at hprop
    have heval : evalSopTerm vcount t m = true := by
      unfold evalSopTerm
      exact evalLits_all_dash t _ hprop.2 (by rw [hlen t ht, natBits_length])
    have hany : terms.any (fun t => evalSopTerm vcount t m) = true :=
      List.any_eq_true.mpr ⟨t, ht, heval⟩
    rw [hany]
    rfl
  · rw [if_neg hg]
    rw [← list_all_not_any]
    apply list_all_congr
    intro t ht
    unfold evalPosFactor evalSopTerm
    exact evalPosLits_eq_not t _ (by rw [hlen t ht, natBits_length])

/-! ## Full-coverage helper -/

theorem full_cover {vcount : Nat} {mts dcs : List Nat} (hval : ValidInput vcount mts dcs)
    (hfull : mts.length + dcs.length = 2 ^ vcount) :
    ∀ m, m < 2 ^ vcount → m ∈ mts ++ dcs := by
  obtain ⟨hnd1, hnd2, hb1, hb2, hdisj⟩ := hval
  apply mem_of_nodup_length_eq
  · exact List.Nodup.append hnd1 hnd2 hdisj
  · intro v hv
    rcases List.mem_append.mp hv with h | h
    · exact hb1 v h
    · exact hb2 v h
  · rw [List.length_append]
    exact hfull

theorem runQM_terms_length {vcount : Nat} {mts dcs : List Nat}
    (hval : ValidInput vcount mts dcs) :
    ∀ t ∈ (runQM vcount mts dcs).terms, t.length = vcount := by
  have hb : ∀ m ∈ mts ++ dcs, m < 2 ^ vcount := by
    intro m hm
    rcases List.mem_append.mp hm with h | h
    · exact hval.2.2.1 m h
    · exact hval.2.2.2.1 m h
  intro t ht
  by_cases hne : mts.isEmpty
  · unfold runQM at ht
    rw [if_pos hne] at ht
    simp at ht
  · have hne2 : mts.isEmpty = false := by
      rw [Bool.not_eq_true] at hne; exact hne
    by_cases hfull : mts.length + dcs.length = 2 ^ vcount
    · unfold runQM at ht
      rw [hne2] at ht
      simp only [Bool.false_eq_true, if_false] at ht
      rw [if_pos hfull] at ht
      simp only [List.mem_singleton] at ht
      rw [ht]
      exact List.length_replicate _ _
    · have hterm := (runQM_main_terms hne2 hfull).1
      rw [hterm] at ht
      obtain ⟨q, hqf, hqt⟩ := List.mem_map.mp ht
      have hinv := (qmCoverSt_spec hval).2
      have hqu : q ∈ qmUniqs vcount mts dcs := hinv.1 q hqf
      rw [← hqt]
      exact (qmUniqs_sound hb q hqu).1

theorem runQM_sop_denote {vcount : Nat} {mts dcs : List Nat}
    (hval : ValidInput vcount mts dcs) (m : Nat) (hmlt : m < 2 ^ vcount) :
    (m ∈ mts → sopDenote vcount (runQM vcount mts dcs).terms m = true) ∧
    (m ∉ mts → m ∉ dcs → sopDenote vcount (runQM vcount mts dcs).terms m = false) := by
  have hb : ∀ x ∈ mts ++ dcs, x < 2 ^ vcount := by
    intro x hx
    rcases List.mem_append.mp hx with h | h
    · exact hval.2.2.1 x h
    · exact hval.2.2.2.1 x h
  by_cases hne : mts.isEmpty
  · have hmts : mts = [] := List.isEmpty_iff.mp hne
    constructor
    · intro hm; rw [hmts] at hm; simp at hm
    · intro _ _
      unfold runQM
      rw [if_pos hne]
      rfl
  · have hne2 : mts.isEmpty = false := by rw [Bool.not_eq_true] at hne; exact hne
    by_cases hfull : mts.length + dcs.length = 2 ^ vcount
    · have hterms : (runQM vcount mts dcs).terms = [List.replicate vcount TChar.dash] := by
        unfold runQM
        rw [hne2]
        simp only [Bool.false_eq_true, if_false]
        rw [if_pos hfull]
      have htrue : sopDenote vcount (runQM vcount mts dcs).terms m = true := by
        rw [hterms]
        unfold sopDenote
        apply List.any_eq_true.mpr
        refine ⟨List.replicate vcount TChar.dash, List.mem_singleton_self _, ?_⟩
        unfold evalSopTerm
        rw [evalLits_eq_matchesBits]
        have h2 := matchesBits_replicate_dash (natBits vcount m)
        rw [natBits_length] at h2
        exact h2
      constructor
      · intro _; exact htrue
      · intro hm1 hm2
        exfalso
        rcases List.mem_append.mp (full_cover hval hfull m hmlt) with h | h
        · exact hm1 h
        · exact hm2 h
    · have hterm := (runQM_main_terms hne2 hfull).1
      obtain ⟨hemp, hinv⟩ := qmCoverSt_spec hval
      constructor
      · intro hm
        rcases hinv.2.2.1 m hm with h | ⟨q, hqf, hmq⟩
        · rw [hemp] at h; simp at h
        · rw [hterm]
          unfold sopDenote
          apply List.any_eq_true.mpr
          refine ⟨q.term, List.mem_map.mpr ⟨q, hqf, rfl⟩, ?_⟩
          unfold evalSopTerm
          rw [evalLits_eq_matchesBits]
          have hqu := hinv.1 q hqf
          have hsound := qmUniqs_sound hb q hqu
          have : m ∈ matchList vcount q.term := by
            rw [← hsound.2.1]; exact hmq
          exact (matchList_mem.mp this).2
      · intro hm1 hm2
        rcases hany : sopDenote vcount (runQM vcount mts dcs).terms m with _ | _
        · rfl
        · exfalso
          rw [hterm] at hany
          unfold sopDenote at hany
          obtain ⟨tt, httm, heval⟩ := List.any_eq_true.mp hany
          obtain ⟨q, hqf, hqt⟩ := List.mem_map.mp httm
          have hqu := hinv.1 q hqf
          have hsound := qmUniqs_sound hb q hqu
          have hmatch : matchesPos vcount q.term m = true := by
            unfold evalSopTerm at heval
            rw [evalLits_eq_matchesBits] at heval
            rw [hqt]
            exact heval
          have hmem : m ∈ q.minterms := by
            rw [hsound.2.1]
            exact matchList_mem.mpr ⟨hmlt, hmatch⟩
          rcases List.mem_append.mp (hsound.2.2 m hmem) with h | h
          · exact hm1 h
          · exact hm2 h

theorem mem_zerosOf {vcount : Nat} {mts dcs : List Nat} {m : Nat} :
    m ∈ zerosOf vcount mts dcs ↔ m < 2 ^ vcount ∧ m ∉ mts ∧ m ∉ dcs := by
  unfold zerosOf
  rw [List.mem_filter, List.mem_range]
  constructor
  · intro ⟨h1, h2⟩
    rw [Bool.and_eq_true] at h2
    refine ⟨h1, ?_, ?_⟩
    · intro hmem
      have hc : mts.contains m = true := List.elem_iff.mpr hmem
      rw [hc] at h2
      simp at h2
    · intro hmem
      have hc : dcs.contains m = true := List.elem_iff.mpr hmem
      rw [hc] at h2
      simp at h2
  · intro ⟨h1, h2, h3⟩
    refine ⟨h1, ?_⟩
    rw [Bool.and_eq_true]
    constructor
    · rcases helem : mts.contains m with _ | _
      · rfl
      · exact absurd (List.elem_iff.mp (by exact helem)) h2
    · rcases helem : dcs.contains m with _ | _
      · rfl
      · exact absurd (List.elem_iff.mp (by exact helem)) h3

theorem zerosOf_valid {vcount : Nat} {mts dcs : List Nat}
    (hval : ValidInput vcount mts dcs) :
    ValidInput vcount (zerosOf vcount mts dcs) dcs := by
  refine ⟨List.Nodup.filter _ (List.nodup_range _), hval.2.1, ?_, hval.2.2.2.1, ?_⟩
  · intro m hm
    exact (mem_zerosOf.mp hm).1
  · intro m hm
    exact (mem_zerosOf.mp hm).2.2

/-! ## Main soundness and coverage theorems -/

/-- C1: soundness of the minimized expression.  For every valid input and
both forms, the returned expression (evaluated with `x_i` = bit `i` of the
position, most-significant bit first) is TRUE on every trueSet position,
FALSE on every position outside trueSet and dontCareSet, and unconstrained
on don't-care positions. -/
theorem solveCustom_sound (vcount : Nat) (mts dcs : List Nat)
    (hval : ValidInput vcount mts dcs) (hv2 : 2 ≤ vcount) (hv5 : vcount ≤ 5)
    (isSop : Bool) (m : Nat) (hm : m < 2 ^ vcount) :
    (m ∈ mts → solveCustomDenote vcount mts dcs isSop m = true) ∧
    (m ∉ mts → m ∉ dcs → solveCustomDenote vcount mts dcs isSop m = false) := by
  cases isSop
  · -- POS form
    have hdef : solveCustomDenote vcount mts dcs false m
        = (if (zerosOf vcount mts dcs).isEmpty then true
           else posDenote vcount (runQM vcount (zerosOf vcount mts dcs) dcs).terms m) :=
      rfl
    by_cases hz : (zerosOf vcount mts dcs).isEmpty
    · constructor
      · intro _
        rw [hdef, if_pos hz]
      · intro hm1 hm2
        exfalso
        have hmem : m ∈ zerosOf vcount mts dcs := mem_zerosOf.mpr ⟨hm, hm1, hm2⟩
        rw [List.isEmpty_iff.mp hz] at hmem
        simp at hmem
    · have hzval := zerosOf_valid hval
      have hden := runQM_sop_denote hzval m hm
      have hlen := runQM_terms_length hzval
      have hnot := @posDenote_eq_not_sopDenote vcount
        ((runQM vcount (zerosOf vcount mts dcs) dcs).terms) m hlen
      rw [hdef, if_neg hz, hnot]
      constructor
      · intro hmem
        have h1 : m ∉ zerosOf vcount mts dcs := fun hmz =>
          (mem_zerosOf.mp hmz).2.1 hmem
        have h2 : m ∉ dcs := hval.2.2.2.2 m hmem
        rw [hden.2 h1 h2]
        rfl
      · intro hm1 hm2
        have hmz : m ∈ zerosOf vcount mts dcs := mem_zerosOf.mpr ⟨hm, hm1, hm2⟩
        rw [hden.1 hmz]
        rfl
  · -- SOP form
    have hdef : solveCustomDenote vcount mts dcs true m
        = sopDenote vcount (runQM vcount mts dcs).terms m := rfl
    rw [hdef]
    exact runQM_sop_denote hval m hm

/-- Witness for C1 at `V = 2`, `trueSet = [1, 3]`, `dontCareSet = []`,
SOP, `m = 1`. -/
theorem solveCustom_sound_witness :
    ValidInput 2 [1, 3] [] ∧ 2 ≤ 2 ∧ 2 ≤ 5 ∧ 1 < 2 ^ 2 ∧
    ((1 ∈ ([1, 3] : List Nat) → solveCustomDenote 2 [1, 3] [] true 1 = true) ∧
     (1 ∉ ([1, 3] : List Nat) → 1 ∉ ([] : List Nat) →
       solveCustomDenote 2 [1, 3] [] true 1 = false)) :=
  ⟨by decide, by decide, by decide, by decide,
    solveCustom_sound 2 [1, 3] [] (by decide) (by decide) (by decide) true 1 (by decide)⟩

/-- C3 as frozen is false on the code: for `V = 2`, `trueSet = {1}`,
`dontCareSet = {3}`, SOP, the only returned group is `[1, 3]`, which
contains the don't-care position `3` outside the trueSet, so the union of
the groups is not exactly the trueSet. -/
theorem solveCustom_coverage_counterexample :
    (solveCustom 2 [1] [3] true).essentials = [[1, 3]] ∧
    (3 : Nat) ∈ [1, 3] ∧ (3 : Nat) ∉ ([1] : List Nat) := by
  refine ⟨by decide, by decide, by decide⟩

/-- C3 amended: for SOP, the union of the returned groups contains every
trueSet position, and contains no position outside trueSet ∪ dontCareSet;
don't-care positions may appear inside returned groups. -/
theorem solveCustom_coverage (vcount : Nat) (mts dcs : List Nat)
    (hval : ValidInput vcount mts dcs) (hv2 : 2 ≤ vcount) (hv5 : vcount ≤ 5) :
    (∀ m ∈ mts, ∃ g ∈ (solveCustom vcount mts dcs true).essentials, m ∈ g) ∧
    (∀ g ∈ (solveCustom vcount mts dcs true).essentials, ∀ m ∈ g,
      m ∈ mts ∨ m ∈ dcs) := by
  have hb : ∀ x ∈ mts ++ dcs, x < 2 ^ vcount := by
    intro x hx
    rcases List.mem_append.mp hx with h | h
    · exact hval.2.2.1 x h
    · exact hval.2.2.2.1 x h
  have hsc : (solveCustom vcount mts dcs true).essentials
      = (runQM vcount mts dcs).groups := rfl
  rw [hsc]
  by_cases hne : mts.isEmpty
  · have hmts : mts = [] := List.isEmpty_iff.mp hne
    constructor
    · intro m hm; rw [hmts] at hm; simp at hm
    · intro g hg
      unfold runQM at hg
      rw [if_pos hne] at hg
      simp at hg
  · have hne2 : mts.isEmpty = false := by rw [Bool.not_eq_true] at hne; exact hne
    by_cases hfull : mts.length + dcs.length = 2 ^ vcount
    · have hgr : (runQM vcount mts dcs).groups = [mts ++ dcs] := by
        unfold runQM
        rw [hne2]
        simp only [Bool.false_eq_true, if_false]
        rw [if_pos hfull]
      rw [hgr]
      constructor
      · intro m hm
        exact ⟨mts ++ dcs, List.mem_singleton_self _, List.mem_append_left _ hm⟩
      · intro g hg m hm
        rw [List.mem_singleton] at hg
        rw [hg] at hm
        exact List.mem_append.mp hm
    · rw [(runQM_main_terms hne2 hfull).2]
      obtain ⟨hemp, hinv⟩ := qmCoverSt_spec hval
      constructor
      · intro m hm
        rcases hinv.2.2.1 m hm with h | ⟨q, hqf, hmq⟩
        · rw [hemp] at h; simp at h
        · exact ⟨q.minterms, List.mem_map.mpr ⟨q, hqf, rfl⟩, hmq⟩
      · intro g hg m hm
        obtain ⟨q, hqf, hqg⟩ := List.mem_map.mp hg
        have hqu := hinv.1 q hqf
        have hsound := qmUniqs_sound hb q hqu
        rw [← hqg] at hm
        exact List.mem_append.mp (hsound.2.2 m hm)

/-- Witness for the amended C3 at `V = 2`, `trueSet = [1, 3]`,
`dontCareSet = []`. -/
theorem solveCustom_coverage_witness :
    ValidInput 2 [1, 3] [] ∧ 2 ≤ 2 ∧ 2 ≤ 5 ∧
    ((∀ m ∈ ([1, 3] : List Nat),
        ∃ g ∈ (solveCustom 2 [1, 3] [] true).essentials, m ∈ g) ∧
     (∀ g ∈ (solveCustom 2 [1, 3] [] true).essentials, ∀ m ∈ g,
        m ∈ ([1, 3] : List Nat) ∨ m ∈ ([] : List Nat))) :=
  ⟨by decide, by decide, by decide,
    solveCustom_coverage 2 [1, 3] [] (by decide) (by decide) (by decide)⟩

/-- C6: totality.  For every valid input the covering pipeline ends with no
required position left uncovered (so the greedy loop's failure exit, which
would leave positions uncovered, is never the terminating branch), and the
combination loop is insensitive to extra fuel (it terminates within the
`V + 1` rounds the embedding allots, mirroring termination of the source's
unbounded `while`). -/
theorem solveCustom_totality (vcount : Nat) (mts dcs : List Nat)
    (hval : ValidInput vcount mts dcs) (hv2 : 2 ≤ vcount) (hv5 : vcount ≤ 5) :
    (qmCoverSt vcount mts dcs).2 = [] ∧
    qmLoop (vcount + 1) (seedGroups vcount mts dcs)
      = qmLoop (vcount + 2) (seedGroups vcount mts dcs) := by
  have hb : ∀ x ∈ mts ++ dcs, x < 2 ^ vcount := by
    intro x hx
    rcases List.mem_append.mp hx with h | h
    · exact hval.2.2.1 x h
    · exact hval.2.2.2.1 x h
  refine ⟨(qmCoverSt_spec hval).1, ?_⟩
  exact qmLoop_fuel (vcount + 1) 0 _ (seedGroups_inv vcount mts dcs hb) (by omega)

/-- Witness for C6 at `V = 2`, `trueSet = [1]`, `dontCareSet = [3]`. -/
theorem solveCustom_totality_witness :
    ValidInput 2 [1] [3] ∧ 2 ≤ 2 ∧ 2 ≤ 5 ∧
    ((qmCoverSt 2 [1] [3]).2 = [] ∧
     qmLoop (2 + 1) (seedGroups 2 [1] [3]) = qmLoop (2 + 2) (seedGroups 2 [1] [3])) :=
  ⟨by decide, by decide, by decide,
    solveCustom_totality 2 [1] [3] (by decide) (by decide) (by decide)⟩

/-! ## Claim C5: POS degenerate endpoints -/

/-- C5: POS degenerate endpoints.  For every valid input in POS form, if the
complement set (`zerosOf`) is empty then `solveCustom` returns the constant
expression `"1"`, and if the complement plus the don't-cares fills the whole
position space (so minimizing the complement yields the all-dash cube) then
`solveCustom` returns the constant expression `"0"`. -/
theorem pos_degenerate_endpoints (vcount : Nat) (mts dcs : List Nat)
    (hval : ValidInput vcount mts dcs) (hv2 : 2 ≤ vcount) (hv5 : vcount ≤ 5) :
    (zerosOf vcount mts dcs = [] → (solveCustom vcount mts dcs false).expression = "1") ∧
    (zerosOf vcount mts dcs ≠ [] →
      (zerosOf vcount mts dcs).length + dcs.length = 2 ^ vcount →
      (solveCustom vcount mts dcs false).expression = "0") := by
  have hdef : solveCustom vcount mts dcs false =
      (if (zerosOf vcount mts dcs).isEmpty then ⟨"1", []⟩
       else ⟨formatPosFromTerms (runQM vcount (zerosOf vcount mts dcs) dcs).terms vcount,
             (runQM vcount (zerosOf vcount mts dcs) dcs).groups⟩) := rfl
  constructor
  · intro hz
    have hze : (zerosOf vcount mts dcs).isEmpty = true := by
      rw [hz]
      rfl
    rw [hdef, if_pos hze]
  · intro hz hfull
    have hze : (zerosOf vcount mts dcs).isEmpty = false := by
      rcases h : (zerosOf vcount mts dcs).isEmpty with _ | _
      · rfl
      · exact absurd (List.isEmpty_iff.mp h) hz
    have hnotpos : ¬ (zerosOf vcount mts dcs).isEmpty = true := by
      rw [hze]
      intro hc
      cases hc
    rw [hdef, if_neg hnotpos]
    show formatPosFromTerms (runQM vcount (zerosOf vcount mts dcs) dcs).terms vcount = "0"
    have hrm : runQM vcount (zerosOf vcount mts dcs) dcs =
        ⟨"1", [zerosOf vcount mts dcs ++ dcs], [List.replicate vcount TChar.dash]⟩ := by
      unfold runQM
      rw [hze]
      simp only [Bool.false_eq_true, if_false]
      rw [if_pos hfull]
    rw [hrm]
    show formatPosFromTerms [List.replicate vcount TChar.dash] vcount = "0"
    have hany : ([List.replicate vcount TChar.dash] : List (List TChar)).any
        (fun t => ! t.isEmpty && t.all (fun c => c == TChar.dash)) = true := by
      obtain ⟨k, hk⟩ : ∃ k, vcount = k + 1 := ⟨vcount - 1, by omega⟩
      subst hk
      simp only [List.any_cons, List.any_nil, Bool.or_false, List.replicate_succ,
        List.isEmpty_cons, Bool.not_false, Bool.true_and, List.all_cons]
      simp [List.all_eq_true, List.mem_replicate]
    unfold formatPosFromTerms
    rw [hany, if_pos rfl]

/-- Witness for C5: both endpoint cases at `V = 2` (the whole space as
`trueSet` for the `"1"` case; the empty function for the `"0"` case). -/
theorem pos_degenerate_endpoints_witness :
    (zerosOf 2 [0, 1, 2, 3] [] = [] ∧
      (solveCustom 2 [0, 1, 2, 3] [] false).expression = "1") ∧
    (zerosOf 2 [] [] ≠ [] ∧ (zerosOf 2 [] []).length + ([] : List Nat).length = 2 ^ 2 ∧
      (solveCustom 2 [] [] false).expression = "0") :=
  ⟨⟨by decide,
    (pos_degenerate_endpoints 2 [0, 1, 2, 3] [] (by decide) (by decide) (by decide)).1
      (by decide)⟩,
   ⟨by decide, by decide,
    (pos_degenerate_endpoints 2 [] [] (by decide) (by decide) (by decide)).2
      (by decide) (by decide)⟩⟩

/-! ## Claim C9: cube cardinality invariant -/

/-- Every implicant collected by the trace of the combination rounds
satisfies the cube invariant of some round and popcount group. -/
theorem qmTrace_sound {vcount : Nat} {seeds : List Nat} : ∀ (fuel : Nat) (k : Nat)
    (gs : List (List Implicant)), InvGS vcount seeds k gs →
    ∀ c ∈ qmTrace fuel gs, ∃ kp ip, CubeOK vcount seeds kp ip c := by
  intro fuel
  induction fuel with
  | zero => intro k gs hinv c hc; simp [qmTrace] at hc
  | succ fuel ih =>
    intro k gs hinv c hc
    rw [qmTrace] at hc
    by_cases hempty : gs.all (fun g => g.isEmpty)
    · rw [if_pos hempty] at hc; simp at hc
    · rw [if_neg hempty] at hc
      rcases List.mem_append.mp hc with h | h
      · obtain ⟨g, hg, hcg⟩ := List.mem_flatten.mp h
        obtain ⟨i, hi, hgi⟩ := List.mem_iff_getElem.mp hg
        refine ⟨k, i, hinv.2 i hi c ?_⟩
        rw [getD_eq_getElem hi, hgi]
        exact hcg
      · by_cases hnext : (combineRound gs).all (fun g => g.isEmpty)
        · rw [if_pos hnext] at h; simp at h
        · rw [if_neg hnext] at h
          exact ih (k + 1) (combineRound gs) (combineRound_inv hinv) c h

/-- C9 counterexample: the claim says every returned group's minterm list is
strictly increasing, but the degenerate full-coverage branch of `runQM`
returns `minterms ++ dontCares` unsorted: for `V = 2`,
`trueSet = [1, 2, 3]`, `dontCareSet = [0]` the single returned group is
`[1, 2, 3, 0]`, which is not strictly increasing. -/
theorem cube_cardinality_counterexample :
    ValidInput 2 [1, 2, 3] [0] ∧
    (runQM 2 [1, 2, 3] [0]).groups = [[1, 2, 3, 0]] ∧
    ¬ List.Pairwise (· < ·) ([1, 2, 3, 0] : List Nat) :=
  ⟨by decide, by decide, by decide⟩

/-- C9 (amended): every implicant constructed by the combination rounds of
`runQM` (seed cubes and every round's products) covers exactly `2^k`
positions where `k` is the number of dashes of its term, with a strictly
increasing minterm list inside `[0, 2^V)`; every returned group has `2^k`
entries (`k ≤ V`) inside `[0, 2^V)`; and outside the degenerate
full-coverage branch (`|trueSet| + |dontCareSet| = 2^V`, whose single group
is the unsorted concatenation `trueSet ++ dontCareSet`) every returned
group is strictly increasing as well. -/
theorem cube_cardinality (vcount : Nat) (mts dcs : List Nat)
    (hval : ValidInput vcount mts dcs) (hv2 : 2 ≤ vcount) (hv5 : vcount ≤ 5) :
    (∀ c ∈ qmTrace (vcount + 1) (seedGroups vcount mts dcs),
        c.minterms.length = 2 ^ countC TChar.dash c.term ∧
        List.Pairwise (· < ·) c.minterms ∧ ∀ m ∈ c.minterms, m < 2 ^ vcount) ∧
    (∀ g ∈ (runQM vcount mts dcs).groups,
        (∃ k, k ≤ vcount ∧ g.length = 2 ^ k) ∧ ∀ m ∈ g, m < 2 ^ vcount) ∧
    (mts.length + dcs.length ≠ 2 ^ vcount →
        ∀ g ∈ (runQM vcount mts dcs).groups, List.Pairwise (· < ·) g) := by
  have hb : ∀ x ∈ mts ++ dcs, x < 2 ^ vcount := by
    intro x hx
    rcases List.mem_append.mp hx with h | h
    · exact hval.2.2.1 x h
    · exact hval.2.2.2.1 x h
  have hmain : ∀ (hne : mts.isEmpty = false)
      (hnf : ¬ mts.length + dcs.length = 2 ^ vcount),
      ∀ g ∈ (runQM vcount mts dcs).groups,
        ((∃ k, k ≤ vcount ∧ g.length = 2 ^ k) ∧ ∀ m ∈ g, m < 2 ^ vcount) ∧
        List.Pairwise (· < ·) g := by
    intro hne hnf g hg
    rw [(runQM_main_terms hne hnf).2] at hg
    obtain ⟨q, hq, hgq⟩ := List.mem_map.mp hg
    have hqu : q ∈ qmUniqs vcount mts dcs := (qmCoverSt_spec hval).2.1 q hq
    obtain ⟨hlen, hmm, _⟩ := qmUniqs_sound hb q hqu
    subst hgq
    refine ⟨⟨⟨countC TChar.dash q.term, ?_, ?_⟩, ?_⟩, ?_⟩
    · rw [← hlen]; exact countC_le_length _ _
    · rw [hmm]; exact matchList_length hlen
    · intro m hm; rw [hmm] at hm; exact (matchList_mem.mp hm).1
    · rw [hmm]; exact matchList_pairwise_lt _ _
  refine ⟨?_, ?_, ?_⟩
  · intro c hc
    obtain ⟨kp, ip, hok⟩ :=
      qmTrace_sound (vcount + 1) 0 _ (seedGroups_inv vcount mts dcs hb) c hc
    obtain ⟨hlen, hdash, hone, hmm, hseeds⟩ := hok
    refine ⟨?_, ?_, ?_⟩
    · rw [hmm]; exact matchList_length hlen
    · rw [hmm]; exact matchList_pairwise_lt _ _
    · intro m hm; rw [hmm] at hm; exact (matchList_mem.mp hm).1
  · intro g hg
    rcases he : mts.isEmpty with _ | _
    · by_cases hfull : mts.length + dcs.length = 2 ^ vcount
      · have hrm : (runQM vcount mts dcs).groups = [mts ++ dcs] := by
          unfold runQM
          rw [he]
          simp only [Bool.false_eq_true, if_false]
          rw [if_pos hfull]
        rw [hrm] at hg
        simp only [List.mem_singleton] at hg
        subst hg
        refine ⟨⟨vcount, le_refl _, ?_⟩, ?_⟩
        · rw [List.length_append]; exact hfull
        · exact hb
      · exact (hmain he hfull g hg).1
    · have : (runQM vcount mts dcs).groups = [] := by
        unfold runQM
        rw [if_pos he]
      rw [this] at hg
      simp at hg
  · intro hnf g hg
    rcases he : mts.isEmpty with _ | _
    · exact (hmain he hnf g hg).2
    · have : (runQM vcount mts dcs).groups = [] := by
        unfold runQM
        rw [if_pos he]
      rw [this] at hg
      simp at hg

/-- Witness for the amended C9 at `V = 2`, `trueSet = [1]`,
`dontCareSet = [3]`. -/
theorem cube_cardinality_witness :
    ValidInput 2 [1] [3] ∧ 2 ≤ 2 ∧ 2 ≤ 5 ∧
    ((∀ c ∈ qmTrace (2 + 1) (seedGroups 2 [1] [3]),
        c.minterms.length = 2 ^ countC TChar.dash c.term ∧
        List.Pairwise (· < ·) c.minterms ∧ ∀ m ∈ c.minterms, m < 2 ^ 2) ∧
     (∀ g ∈ (runQM 2 [1] [3]).groups,
        (∃ k, k ≤ 2 ∧ g.length = 2 ^ k) ∧ ∀ m ∈ g, m < 2 ^ 2) ∧
     (([1] : List Nat).length + ([3] : List Nat).length ≠ 2 ^ 2 →
        ∀ g ∈ (runQM 2 [1] [3]).groups, List.Pairwise (· < ·) g)) :=
  ⟨by decide, by decide, by decide,
    cube_cardinality 2 [1] [3] (by decide) (by decide) (by decide)⟩

/-! ## Claim C4: essential primes are always selected -/

theorem countC_append (c : TChar) (l1 l2 : List TChar) :
    countC c (l1 ++ l2) = countC c l1 + countC c l2 := by
  unfold countC
  rw [List.filter_append, List.length_append]

theorem countC_replicate_self (c : TChar) (n : Nat) :
    countC c (List.replicate n c) = n := by
  induction n with
  | zero => rfl
  | succ n ih =>
    rw [List.replicate_succ, countC_cons, if_pos rfl]
    omega

theorem countC_replicate_ne (c c2 : TChar) (h : c2 ≠ c) (n : Nat) :
    countC c (List.replicate n c2) = 0 := by
  induction n with
  | zero => rfl
  | succ n ih =>
    rw [List.replicate_succ, countC_cons, if_neg h]
    omega

theorem countC_two_le (a b : TChar) (hab : a ≠ b) : ∀ t : List TChar,
    countC a t + countC b t ≤ t.length := by
  intro t
  induction t with
  | nil => simp [countC]
  | cons y l ih =>
    rw [countC_cons, countC_cons]
    simp only [List.length_cons]
    by_cases h1 : y = a
    · have h2 : ¬ y = b := by rw [h1]; exact hab
      rw [if_pos h1, if_neg h2]
      omega
    · rw [if_neg h1]
      by_cases h2 : y = b
      · rw [if_pos h2]; omega
      · rw [if_neg h2]; omega

theorem set_self (t : List TChar) (d : Nat) (hd : d < t.length) :
    t.set d (t.getD d TChar.dash) = t := by
  apply list_ext_getD
  · rw [length_set]
  · intro i hi
    rw [length_set] at hi
    by_cases h : i = d
    · subst h
      rw [getD_set_eq _ _ _ hi]
    · rw [getD_set_ne _ _ _ _ h]

theorem getD_map_bit : ∀ (bs : List Bool) (i : Nat), i < bs.length →
    ((bs.map (fun b => if b then TChar.one else TChar.zero)).getD i TChar.dash)
      = (if bs.getD i false then TChar.one else TChar.zero) := by
  intro bs
  induction bs with
  | nil => intro i hi; simp at hi
  | cons b bs ih =>
    intro i hi
    cases i with
    | zero => rfl
    | succ j =>
      simp only [List.map_cons, List.getD_cons_succ]
      exact ih j (by simpa using hi)

theorem getD_mem_of_lt (t : List TChar) (i : Nat) (hi : i < t.length) :
    t.getD i TChar.dash ∈ t := by
  rw [List.getD_eq_getElem?_getD, List.getElem?_eq_getElem hi]
  exact List.getElem_mem hi

theorem getD_ne_of_countC_zero (t : List TChar) (hd : countC TChar.dash t = 0)
    (i : Nat) (hi : i < t.length) : t.getD i TChar.dash ≠ TChar.dash := by
  intro hcon
  have hmem : TChar.dash ∈ t := hcon ▸ getD_mem_of_lt t i hi
  have hfne : t.filter (fun x => x == TChar.dash) ≠ [] :=
    List.ne_nil_of_mem (List.mem_filter.mpr ⟨hmem, by rfl⟩)
  unfold countC at hd
  have := List.length_pos.mpr hfne
  omega

/-- Presence of every admissible cube of round `k`: any term of length `V`
with `k` dashes whose covered positions were all seeded occurs (as a term)
in the popcount group of the round's group array. -/
def PresentAll (vcount : Nat) (seeds : List Nat) (k : Nat)
    (gs : List (List Implicant)) : Prop :=
  ∀ t : List TChar, t.length = vcount → countC TChar.dash t = k →
    (∀ m2 ∈ matchList vcount t, m2 ∈ seeds) →
    ∃ c ∈ gs.getD (countC TChar.one t) [], c.term = t

theorem presentAll_seed (vcount : Nat) (mts dcs : List Nat) :
    PresentAll vcount (mts ++ dcs) 0 (seedGroups vcount mts dcs) := by
  intro t hlen hdash hsub
  have hml : (matchList vcount t).length = 1 := by
    rw [matchList_length hlen, hdash]
    rfl
  obtain ⟨m, hm⟩ : ∃ m, matchList vcount t = [m] := by
    rcases hL : matchList vcount t with _ | ⟨a, rest⟩
    · rw [hL] at hml; simp at hml
    · rcases rest with _ | ⟨b, r2⟩
      · exact ⟨a, rfl⟩
      · rw [hL] at hml; simp at hml
  have hmmem : m ∈ matchList vcount t := by
    rw [hm]; exact List.mem_singleton_self m
  have hseed : m ∈ mts ++ dcs := hsub m hmmem
  have hmb : matchesBits t (natBits vcount m) = true := (matchList_mem.mp hmmem).2
  have hteq : t = termOfNat vcount m := by
    apply list_ext_getD
    · rw [hlen, termOfNat_length]
    · intro i hi
      have hnd := getD_ne_of_countC_zero t hdash i hi
      rcases matchesBits_getD t (natBits vcount m) hmb i hi with h | h
      · exact absurd h hnd
      · rw [h]
        unfold termOfNat
        rw [getD_map_bit _ _ (by rw [natBits_length]; rw [hlen] at hi; exact hi)]
  refine ⟨⟨termOfNat vcount m, [m]⟩, ?_, ?_⟩
  · rw [hteq]
    exact seed_cube_mem hseed
  · rw [hteq]

theorem presentAll_step {vcount : Nat} {seeds : List Nat} {k : Nat}
    {gs : List (List Implicant)} (hinv : InvGS vcount seeds k gs)
    (hp : PresentAll vcount seeds k gs) :
    PresentAll vcount seeds (k + 1) (combineRound gs) := by
  intro t hlen hdash hsub
  obtain ⟨d, hd, hdd⟩ : ∃ d, d < t.length ∧ t.getD d TChar.dash = TChar.dash := by
    have hne : t.filter (fun x => x == TChar.dash) ≠ [] := by
      intro h
      have h0 : countC TChar.dash t = 0 := by
        unfold countC
        rw [h]
        rfl
      omega
    obtain ⟨x, hx⟩ := List.exists_mem_of_ne_nil _ hne
    rw [List.mem_filter] at hx
    have hxd : x = TChar.dash := by simpa using hx.2
    obtain ⟨i, hi, hti⟩ := List.mem_iff_getElem.mp hx.1
    refine ⟨i, hi, ?_⟩
    rw [List.getD_eq_getElem?_getD, List.getElem?_eq_getElem hi]
    rw [hxd] at hti
    exact hti
  have hback : (t.set d TChar.zero).set d TChar.dash = t := by
    rw [List.set_set, ← hdd]
    exact set_self t d hd
  have hd0 : d < (t.set d TChar.zero).length := by
    rw [length_set]; exact hd
  have hz0 : (t.set d TChar.zero).getD d TChar.dash = TChar.zero :=
    getD_set_eq t d TChar.zero hd
  have hdash0 : countC TChar.dash (t.set d TChar.zero) = k := by
    have hc := countC_set t d TChar.zero TChar.dash hd
    rw [hdd] at hc
    have hz : ¬ (TChar.zero = TChar.dash) := by decide
    rw [if_pos rfl, if_neg hz] at hc
    omega
  have hdash1 : countC TChar.dash (t.set d TChar.one) = k := by
    have hc := countC_set t d TChar.one TChar.dash hd
    rw [hdd] at hc
    have hz : ¬ (TChar.one = TChar.dash) := by decide
    rw [if_pos rfl, if_neg hz] at hc
    omega
  have hone0 : countC TChar.one (t.set d TChar.zero) = countC TChar.one t := by
    have hc := countC_set t d TChar.zero TChar.one hd
    rw [hdd] at hc
    have h1 : ¬ (TChar.dash = TChar.one) := by decide
    have h2 : ¬ (TChar.zero = TChar.one) := by decide
    rw [if_neg h1, if_neg h2] at hc
    omega
  have hone1 : countC TChar.one (t.set d TChar.one) = countC TChar.one t + 1 := by
    have hc := countC_set t d TChar.one TChar.one hd
    rw [hdd] at hc
    have h1 : ¬ (TChar.dash = TChar.one) := by decide
    rw [if_neg h1, if_pos rfl] at hc
    omega
  have hunion : ∀ m2 : Nat, m2 ∈ matchList vcount t ↔
      m2 ∈ matchList vcount (t.set d TChar.zero) ∨
      m2 ∈ matchList vcount ((t.set d TChar.zero).set d TChar.one) := by
    intro m2
    have hiff := @matchList_set_union vcount (t.set d TChar.zero) d hd0 hz0 m2
    rw [hback] at hiff
    exact hiff
  have hsub0 : ∀ m2 ∈ matchList vcount (t.set d TChar.zero), m2 ∈ seeds := by
    intro m2 hm2
    exact hsub m2 ((hunion m2).mpr (Or.inl hm2))
  have hsub1 : ∀ m2 ∈ matchList vcount (t.set d TChar.one), m2 ∈ seeds := by
    intro m2 hm2
    apply hsub m2
    apply (hunion m2).mpr
    apply Or.inr
    rw [List.set_set]
    exact hm2
  obtain ⟨c0, hc0mem, hc0t⟩ := hp (t.set d TChar.zero)
    (by rw [length_set]; exact hlen) hdash0 hsub0
  obtain ⟨c1, hc1mem, hc1t⟩ := hp (t.set d TChar.one)
    (by rw [length_set]; exact hlen) hdash1 hsub1
  rw [hone0] at hc0mem
  rw [hone1] at hc1mem
  have hdiff : diffIndex c0.term c1.term = some d := by
    rw [hc0t, hc1t]
    apply (diffIndex_eq_some_iff _ _ _).mpr
    refine ⟨by rw [length_set]; exact hd, ?_, ?_⟩
    · rw [getD_set_eq t d _ hd, getD_set_eq t d _ hd]
      decide
    · intro i2 hi2 hne2
      rw [getD_set_ne t d _ i2 hne2, getD_set_ne t d _ i2 hne2]
  have hio : countC TChar.one t + (k + 1) ≤ vcount := by
    have hle := countC_two_le TChar.one TChar.dash (by decide) t
    rw [hdash, hlen] at hle
    exact hle
  have hglen : gs.length = vcount + 1 := hinv.1
  have hi1 : countC TChar.one t + 1 < gs.length := by omega
  have hi0 : countC TChar.one t < gs.length := by omega
  obtain ⟨c, hcmem, hcterm⟩ := combinePair_exists hc0mem hc1mem hdiff
  refine ⟨c, ?_, ?_⟩
  · rw [combineRound_getD hi0, if_pos hi1]
    exact hcmem
  · rw [hcterm, hc0t, List.set_set, ← hdd]
    exact set_self t d hd

theorem combineInto_nil_right (t1 : Implicant) (acc : List Implicant) :
    combineInto t1 [] acc = acc := rfl

theorem combinePairAux_nil_right : ∀ (g1 acc : List Implicant),
    combinePairAux g1 [] acc = acc := by
  intro g1
  induction g1 with
  | nil => intro acc; rfl
  | cons t1 g1 ih =>
    intro acc
    rw [combinePairAux, combineInto_nil_right]
    exact ih acc

theorem combinePair_nil_right (g1 : List Implicant) : combinePair g1 [] = [] :=
  combinePairAux_nil_right g1 []

theorem getD_out_of_range (gs : List (List Implicant)) (j : Nat)
    (hj : gs.length ≤ j) : gs.getD j [] = [] := by
  rw [List.getD_eq_getElem?_getD, List.getElem?_eq_none hj]
  rfl

/-- At round `V` every group of positive popcount is empty (a cube there
would need `V` dashes and at least one `1` in a term of length `V`). -/
theorem lastRound_groups_empty {vcount : Nat} {seeds : List Nat}
    {gs : List (List Implicant)} (hinv : InvGS vcount seeds vcount gs) :
    ∀ j, 1 ≤ j → gs.getD j [] = [] := by
  intro j hj
  by_cases hjl : j < gs.length
  · apply List.eq_nil_iff_forall_not_mem.mpr
    intro c' hc'
    have hok := hinv.2 j hjl c' hc'
    have hle := countC_two_le TChar.one TChar.dash (by decide) c'.term
    rw [hok.2.2.1, hok.2.1, hok.1] at hle
    omega
  · exact getD_out_of_range gs j (by omega)

theorem lastRound_next_empty {vcount : Nat} {seeds : List Nat}
    {gs : List (List Implicant)} (hinv : InvGS vcount seeds vcount gs) :
    (combineRound gs).all (fun g => g.isEmpty) = true := by
  rw [List.all_eq_true]
  intro g hg
  unfold combineRound at hg
  obtain ⟨j, hj, hgj⟩ := List.mem_map.mp hg
  rw [List.mem_range] at hj
  by_cases hj1 : j + 1 < gs.length
  · rw [if_pos hj1] at hgj
    rw [← hgj, lastRound_groups_empty hinv (j + 1) (by omega), combinePair_nil_right]
    rfl
  · rw [if_neg hj1] at hgj
    rw [← hgj]
    rfl

theorem qmLoop_allDash {vcount : Nat} {seeds : List Nat} (hv1 : 1 ≤ vcount)
    (hfull : ∀ m2, m2 < 2 ^ vcount → m2 ∈ seeds) :
    ∀ (fuel k : Nat) (gs : List (List Implicant)), InvGS vcount seeds k gs →
    PresentAll vcount seeds k gs → k ≤ vcount → vcount + 1 - k ≤ fuel →
    ∃ p ∈ qmLoop fuel gs, p.term = List.replicate vcount TChar.dash := by
  have hcanon : ∀ (k : Nat) (gs : List (List Implicant)),
      PresentAll vcount seeds k gs → k ≤ vcount →
      ∃ c ∈ gs.getD 0 [],
        c.term = List.replicate k TChar.dash ++ List.replicate (vcount - k) TChar.zero := by
    intro k gs hp hk
    have hones : countC TChar.one
        (List.replicate k TChar.dash ++ List.replicate (vcount - k) TChar.zero) = 0 := by
      rw [countC_append, countC_replicate_ne _ _ (by decide),
        countC_replicate_ne _ _ (by decide)]
    have h := hp (List.replicate k TChar.dash ++ List.replicate (vcount - k) TChar.zero)
      (by rw [List.length_append, List.length_replicate, List.length_replicate]; omega)
      (by rw [countC_append, countC_replicate_self, countC_replicate_ne _ _ (by decide)]
          omega)
      (fun m2 hm2 => hfull m2 (matchList_mem.mp hm2).1)
    rw [hones] at h
    exact h
  intro fuel
  induction fuel with
  | zero => intro k gs _ _ hk hf; omega
  | succ fuel ih =>
    intro k gs hinv hp hk hf
    obtain ⟨c, hcmem, hcterm⟩ := hcanon k gs hp hk
    have h0len : 0 < gs.length := by rw [hinv.1]; omega
    have hnotempty : gs.all (fun g => g.isEmpty) = false :=
      not_all_empty_of_cube h0len hcmem
    rw [qmLoop, hnotempty]
    simp only [Bool.false_eq_true, if_false]
    by_cases hke : k = vcount
    · rw [hke] at hinv hcterm
      have hcdash : c.term = List.replicate vcount TChar.dash := by
        rw [hcterm, Nat.sub_self, List.replicate_zero, List.append_nil]
      rw [if_pos (lastRound_next_empty hinv)]
      refine ⟨c, ?_, hcdash⟩
      apply collectPrimes_mem h0len hcmem
      unfold markedAt
      rw [lastRound_groups_empty hinv 1 (by omega)]
      simp
    · have hinv' := combineRound_inv hinv
      have hp' := presentAll_step hinv hp
      obtain ⟨c2, hc2mem, _⟩ := hcanon (k + 1) (combineRound gs) hp' (by omega)
      have h0len' : 0 < (combineRound gs).length := by
        rw [combineRound_length]; exact h0len
      have hnotempty' : (combineRound gs).all (fun g => g.isEmpty) = false :=
        not_all_empty_of_cube h0len' hc2mem
      rw [hnotempty']
      simp only [Bool.false_eq_true, if_false]
      obtain ⟨p, hpmem, hpterm⟩ := ih (k + 1) (combineRound gs) hinv' hp'
        (by omega) (by omega)
      exact ⟨p, List.mem_append_right _ hpmem, hpterm⟩

/-- The first pass of the essential-prime loop adds any prime that is the
sole cover of a still-remaining required position. -/
theorem essLoop_adds {uniqs : List Implicant} {m : Nat} {q : Implicant} :
    ∀ (fuel : Nat) (st : List Implicant × List Nat), m ∈ st.2 →
    coverageOf uniqs m = [q] → q ∈ (essLoop (fuel + 1) uniqs st).1 := by
  intro fuel st hm hcov
  rw [essLoop]
  have hne : st.2 ≠ [] := List.ne_nil_of_mem hm
  have hre : ¬ (st.2.isEmpty = true) := by
    intro h
    exact hne (List.isEmpty_iff.mp h)
  rw [if_neg hre]
  simp only []
  have hmE : m ∈ st.2.filter (fun m2 => (coverageOf uniqs m2).length == 1) := by
    rw [List.mem_filter]
    refine ⟨hm, ?_⟩
    show ((coverageOf uniqs m).length == 1) = true
    rw [hcov]
    rfl
  have hqF : q ∈ (st.2.filter (fun m2 => (coverageOf uniqs m2).length == 1)).filterMap
      (fun m2 => (coverageOf uniqs m2).head?) := by
    apply List.mem_filterMap.mpr
    refine ⟨m, hmE, ?_⟩
    show (coverageOf uniqs m).head? = some q
    rw [hcov]
    rfl
  have hqD : q ∈ dedupImp
      ((st.2.filter (fun m2 => (coverageOf uniqs m2).length == 1)).filterMap
        (fun m2 => (coverageOf uniqs m2).head?)) :=
    dedupImpGo_mem _ [] q hqF (by simp)
  have hDne : ¬ ((dedupImp
      ((st.2.filter (fun m2 => (coverageOf uniqs m2).length == 1)).filterMap
        (fun m2 => (coverageOf uniqs m2).head?))).isEmpty = true) := by
    intro h
    rw [List.isEmpty_iff.mp h] at hqD
    simp at hqD
  rw [if_neg hDne]
  apply essLoop_fst_mono
  exact foldl_push_fst_adds _ _ q hqD

/-- C4: essential primes are always selected.  For every valid SOP input,
if a required position `m` is covered by exactly one deduplicated prime
(`coverage[m]` is the singleton `[q]`), then the minterm set of `q` is one
of the groups returned by `solveCustom` (position-for-position: some
returned group contains exactly the positions of `q.minterms`). -/
theorem essential_primes_selected (vcount : Nat) (mts dcs : List Nat)
    (hval : ValidInput vcount mts dcs) (hv2 : 2 ≤ vcount) (hv5 : vcount ≤ 5)
    (m : Nat) (hm : m ∈ mts) (q : Implicant)
    (hcov : coverageOf (qmUniqs vcount mts dcs) m = [q]) :
    ∃ g ∈ (solveCustom vcount mts dcs true).essentials,
      ∀ x, x ∈ g ↔ x ∈ q.minterms := by
  have hb : ∀ x ∈ mts ++ dcs, x < 2 ^ vcount := by
    intro x hx
    rcases List.mem_append.mp hx with h | h
    · exact hval.2.2.1 x h
    · exact hval.2.2.2.1 x h
  have hne : mts.isEmpty = false := by
    rcases h : mts.isEmpty with _ | _
    · rfl
    · exact absurd (List.isEmpty_iff.mp h) (List.ne_nil_of_mem hm)
  have hsol : (solveCustom vcount mts dcs true).essentials
      = (runQM vcount mts dcs).groups := rfl
  rw [hsol]
  by_cases hfull : mts.length + dcs.length = 2 ^ vcount
  · have hrm : (runQM vcount mts dcs).groups = [mts ++ dcs] := by
      unfold runQM
      rw [hne]
      simp only [Bool.false_eq_true, if_false]
      rw [if_pos hfull]
    rw [hrm]
    refine ⟨mts ++ dcs, List.mem_singleton_self _, ?_⟩
    have hfc := full_cover hval hfull
    obtain ⟨p, hpmem, hpterm⟩ := qmLoop_allDash (by omega) hfc
      (vcount + 1) 0 (seedGroups vcount mts dcs) (seedGroups_inv vcount mts dcs hb)
      (presentAll_seed vcount mts dcs) (by omega) (by omega)
    obtain ⟨q2, hq2mem, hq2term⟩ := dedupByTerm_complete _ p hpmem
    have hq2u : q2 ∈ qmUniqs vcount mts dcs := hq2mem
    have hq2mm : q2.minterms = matchList vcount q2.term := (qmUniqs_sound hb q2 hq2u).2.1
    have hq2all : q2.minterms = List.range (2 ^ vcount) := by
      rw [hq2mm, hq2term, hpterm, matchList_replicate_dash]
    have hmin : m ∈ q2.minterms := by
      rw [hq2all, List.mem_range]
      exact hval.2.2.1 m hm
    have hq2cov : q2 ∈ coverageOf (qmUniqs vcount mts dcs) m := by
      unfold coverageOf
      rw [List.mem_filter]
      exact ⟨hq2u, List.elem_iff.mpr hmin⟩
    rw [hcov] at hq2cov
    have hq2q : q2 = q := by simpa using hq2cov
    intro x
    rw [← hq2q, hq2all, List.mem_range]
    constructor
    · intro hx
      exact hb x hx
    · intro hx
      exact hfc x hx
  · have hgroups := (runQM_main_terms hne hfull).2
    rw [hgroups]
    have hinit : StInv (qmUniqs vcount mts dcs) mts ([], mts) := by
      refine ⟨?_, ?_, ?_, ?_⟩
      · intro q3 hq3; simp at hq3
      · intro m2 hm2; exact hm2
      · intro m2 hm2; exact Or.inl hm2
      · intro q3 hq3; simp at hq3
    have hst1 := essLoop_inv (mts.length + 1) ([], mts) hinit
    have hcovall : ∀ m2 ∈ mts, ∃ q3 ∈ qmUniqs vcount mts dcs, m2 ∈ q3.minterms := by
      intro m2 hm2
      exact qmUniqs_complete hb m2 (List.mem_append_left _ hm2)
    have hq1 : q ∈ (essLoop (mts.length + 1) (qmUniqs vcount mts dcs) ([], mts)).1 :=
      essLoop_adds mts.length ([], mts) hm hcov
    have hg := greedyLoop_master hcovall
      ((essLoop (mts.length + 1) (qmUniqs vcount mts dcs) ([], mts)).2.length + 1)
      (essLoop (mts.length + 1) (qmUniqs vcount mts dcs) ([], mts))
      (by omega) hst1
    have hq2 : q ∈ qmFinalPIs vcount mts dcs := hg.2.2 q hq1
    exact ⟨q.minterms, List.mem_map.mpr ⟨q, hq2, rfl⟩, fun x => Iff.rfl⟩

/-- Witness for C4 at `V = 2`, `trueSet = [1, 3]`: the prime `-1` (minterms
`[1, 3]`) is the sole cover of position `1` and its minterm set is a
returned group. -/
theorem essential_primes_selected_witness :
    ValidInput 2 [1, 3] [] ∧ (1 : Nat) ∈ ([1, 3] : List Nat) ∧
    coverageOf (qmUniqs 2 [1, 3] []) 1
      = [⟨[TChar.dash, TChar.one], [1, 3]⟩] ∧
    ∃ g ∈ (solveCustom 2 [1, 3] [] true).essentials,
      ∀ x, x ∈ g ↔ x ∈ (⟨[TChar.dash, TChar.one], [1, 3]⟩ : Implicant).minterms :=
  ⟨by decide, by decide, by decide,
   essential_primes_selected 2 [1, 3] [] (by decide) (by decide) (by decide) 1
     (by decide) ⟨[TChar.dash, TChar.one], [1, 3]⟩ (by decide)⟩
